import Mathlib

/-!
A verification development for the conda-index repository.

The definitions below are a shallow embedding of the core data model and
operations of conda-index: the sqlite `stat`/`index_json` tables and their
queries (sqlitecache.py), patch-instruction application, channeldata merging,
output writing and shard writing (index/__init__.py), the post-install scan
(sqlitecache.py) and the filesystem adapter (fs.py).  External collaborators
(sqlite itself, hashlib, zstandard, msgpack, conda's VersionOrder) are
modelled abstractly: tables become lists of rows, SQL queries become list
transformations with SQL's three-valued `!=` made explicit, digests and
serializers become function parameters.
-/

namespace CondaIndex

/-- Recognized legacy package extension, `utils.CONDA_PACKAGE_EXTENSION_V1` (".tar.bz2"). -/
def extV1 : String := ".tar.bz2"

/-- Recognized newer package extension, `utils.CONDA_PACKAGE_EXTENSION_V2` (".conda"). -/
def extV2 : String := ".conda"

/-- Lookup in an association list (first match), modelling Python `dict.get`. -/
def alookup {κ α : Type} [DecidableEq κ] : List (κ × α) → κ → Option α
  | [], _ => none
  | (k', v) :: rest, k => if k' = k then some v else alookup rest k

/-- Insert-or-replace in an association list, modelling Python `d[k] = v`:
an existing key keeps its position, a new key is appended at the end. -/
def aset {κ α : Type} [DecidableEq κ] : List (κ × α) → κ → α → List (κ × α)
  | [], k, v => [(k, v)]
  | (k', v') :: rest, k, v =>
      if k' = k then (k, v) :: rest else (k', v') :: aset rest k v

/-- Delete a key from an association list, modelling Python `d.pop(k, None)`
(the returned value is recovered separately via `alookup`). -/
def aerase {κ α : Type} [DecidableEq κ] (l : List (κ × α)) (k : κ) : List (κ × α) :=
  l.filter (fun kv => kv.1 ≠ k)

theorem alookup_aset_self {κ α : Type} [DecidableEq κ] (l : List (κ × α)) (k : κ) (v : α) :
    alookup (aset l k v) k = some v := by
  induction l with
  | nil => simp [aset, alookup]
  | cons hd tl ih =>
    rcases hd with ⟨k', v'⟩
    by_cases hk : k' = k
    · simp [aset, alookup, hk]
    · simp [aset, alookup, hk, ih]

theorem alookup_aset_ne {κ α : Type} [DecidableEq κ] (l : List (κ × α)) (k x : κ) (v : α)
    (h : x ≠ k) : alookup (aset l k v) x = alookup l x := by
  induction l with
  | nil =>
    have : ¬(k = x) := fun hh => h hh.symm
    simp [aset, alookup, this]
  | cons hd tl ih =>
    rcases hd with ⟨k', v'⟩
    by_cases hk : k' = k
    · have h1 : ¬(k = x) := fun hh => h hh.symm
      simp [aset, alookup, hk, h1]
    · by_cases hx : k' = x
      · simp [aset, alookup, hk, hx, h]
      · simp [aset, alookup, hk, hx, ih]

theorem alookup_aerase {κ α : Type} [DecidableEq κ] (l : List (κ × α)) (k x : κ) :
    alookup (aerase l k) x = if x = k then none else alookup l x := by
  induction l with
  | nil => simp [aerase, alookup]
  | cons hd tl ih =>
    rcases hd with ⟨k', v⟩
    by_cases hk : k' = k
    · subst hk
      have h1 : aerase ((k', v) :: tl) k' = aerase tl k' := by
        simp [aerase, List.filter]
      rw [h1, ih]
      by_cases hx : x = k'
      · simp [hx]
      · have h2 : ¬(k' = x) := fun h => hx h.symm
        simp [alookup, hx, h2]
    · have h1 : aerase ((k', v) :: tl) k = (k', v) :: aerase tl k := by
        simp [aerase, List.filter, hk]
      rw [h1]
      by_cases hx : k' = x
      · have hxk : ¬(x = k) := fun h => hk (hx.trans h)
        simp [alookup, hx, hxk]
      · simp [alookup, hx, ih]

/-- Insertion step for sorting a list of strings. -/
def insertStr (x : String) : List String → List String
  | [] => [x]
  | y :: ys => if x < y then x :: y :: ys else y :: insertStr x ys

/-- Insertion sort on strings; models Python `list.sort()` on `removed` lists
and `sorted(...)` on subdir sets. -/
def sortStrings (l : List String) : List String :=
  l.foldr insertStr []

theorem mem_insertStr (x y : String) (l : List String) :
    y ∈ insertStr x l ↔ y = x ∨ y ∈ l := by
  induction l with
  | nil => simp [insertStr]
  | cons hd tl ih =>
    by_cases h : x < hd
    · simp [insertStr, h]
    · simp [insertStr, h, ih]
      tauto

theorem mem_sortStrings (x : String) (l : List String) :
    x ∈ sortStrings l ↔ x ∈ l := by
  induction l with
  | nil => simp [sortStrings]
  | cons hd tl ih =>
    simp only [sortStrings, List.foldr] at *
    rw [mem_insertStr, ih, List.mem_cons]

theorem sorted_insertStr (x : String) (l : List String)
    (h : l.Pairwise (· ≤ ·)) : (insertStr x l).Pairwise (· ≤ ·) := by
  induction l with
  | nil => simp [insertStr]
  | cons hd tl ih =>
    rcases List.pairwise_cons.mp h with ⟨hhd, htl⟩
    by_cases hx : x < hd
    · rw [insertStr, if_pos hx]
      refine List.pairwise_cons.mpr ⟨?_, h⟩
      intro b hb
      rcases List.mem_cons.mp hb with rfl | hb
      · exact le_of_lt hx
      · exact le_trans (le_of_lt hx) (hhd b hb)
    · rw [insertStr, if_neg hx]
      refine List.pairwise_cons.mpr ⟨?_, ih htl⟩
      intro b hb
      rcases (mem_insertStr x b tl).mp hb with rfl | hb
      · exact le_of_not_lt hx
      · exact hhd b hb

theorem sorted_sortStrings (l : List String) :
    (sortStrings l).Pairwise (· ≤ ·) := by
  induction l with
  | nil => simp [sortStrings]
  | cons hd tl ih => exact sorted_insertStr hd _ ih

/-! ## The `stat` table and `changed_packages` (sqlitecache.py)

The cache database's `stat` table has primary key `(stage, path)` and
columns `mtime, size, sha256, md5`; the `observed` stage is called `'fs'`
in the code, and `changed_packages` compares the configured
`upstream_stage` against the `'indexed'` stage. -/

/-- One row of the `stat` table.  Nullable SQL columns are `Option`. -/
structure StatRow where
  stage : String
  path : String
  mtime : Option Int
  size : Option Int
  sha256 : Option String
  md5 : Option String
deriving DecidableEq, Repr

/-- SQL three-valued `!=` restricted to its Boolean uses: `NULL != x` is
not true, so a row only passes the filter when both sides are non-NULL
and different. -/
def sqlNeq (a b : Option Int) : Bool :=
  match a, b with
  | some x, some y => x != y
  | _, _ => false

/-- Models `path LIKE :path_like` where `:path_like` is the database
prefix followed by `%` (the prefix contains no SQL wildcards). -/
def likePfx (pfx s : String) : Bool := pfx.data.isPrefixOf s.data

/-- The three-valued `!=` is never true on equal operands. -/
theorem sqlNeq_refl (a : Option Int) : sqlNeq a a = false := by
  cases a <;> simp [sqlNeq]

/-- A row of the `changed_packages` result (`SELECT fs.path, fs.mtime, fs.size ...`). -/
structure ChangedRow where
  path : String
  mtime : Option Int
  size : Option Int
deriving DecidableEq, Repr

/-- SQL `FROM fs LEFT JOIN cached USING (path)`: every upstream row paired
with each matching indexed row, or with `none` when no indexed row matches. -/
def leftJoinIndexed (fs cached : List StatRow) : List (StatRow × Option StatRow) :=
  fs.flatMap (fun f =>
    let cs := cached.filter (fun c => c.path == f.path)
    if cs.isEmpty then [(f, none)] else cs.map (fun c => (f, some c)))

/-- Embedding of `CondaIndexCache.changed_packages`: upstream-stage rows
left-joined to `'indexed'`-stage rows on `path`, kept when the path matches
the scope and the mtimes differ, the sizes differ, or there is no indexed
row.  Checksum columns are selected but never compared. -/
def changedPackages (us pfx : String) (stat : List StatRow) : List ChangedRow :=
  let fs := stat.filter (fun r => r.stage == us)
  let cached := stat.filter (fun r => r.stage == "indexed")
  (leftJoinIndexed fs cached).filterMap (fun fc =>
    if likePfx pfx fc.1.path &&
        (match fc.2 with
         | none => true
         | some c => sqlNeq fc.1.mtime c.mtime || sqlNeq fc.1.size c.size)
    then some ⟨fc.1.path, fc.1.mtime, fc.1.size⟩ else none)

/-- Paths produced by `changed_packages`; `extract_subdir_to_cache` extracts
exactly these. -/
def changedPaths (us pfx : String) (stat : List StatRow) : List String :=
  (changedPackages us pfx stat).map ChangedRow.path

theorem mem_leftJoinIndexed (fs cached : List StatRow) (f : StatRow) (oc : Option StatRow) :
    (f, oc) ∈ leftJoinIndexed fs cached ↔
      f ∈ fs ∧ ((oc = none ∧ ∀ c ∈ cached, c.path ≠ f.path) ∨
                 (∃ c ∈ cached, oc = some c ∧ c.path = f.path)) := by
  unfold leftJoinIndexed
  rw [List.mem_flatMap]
  constructor
  · rintro ⟨g, hg, hmem⟩
    simp only at hmem
    by_cases hempty : (cached.filter (fun c => c.path == g.path)).isEmpty
    · rw [if_pos hempty] at hmem
      simp only [List.mem_singleton, Prod.mk.injEq] at hmem
      obtain ⟨rfl, rfl⟩ := hmem
      refine ⟨hg, Or.inl ⟨rfl, ?_⟩⟩
      intro c hc hpath
      have : c ∈ cached.filter (fun c => c.path == f.path) := by
        simp [List.mem_filter, hc, hpath]
      rw [List.isEmpty_iff] at hempty
      simp [hempty] at this
    · rw [if_neg hempty] at hmem
      simp only [List.mem_map, Prod.mk.injEq] at hmem
      obtain ⟨c, hc, rfl, rfl⟩ := hmem
      rw [List.mem_filter] at hc
      exact ⟨hg, Or.inr ⟨c, hc.1, rfl, by simpa using hc.2⟩⟩
  · rintro ⟨hf, hrest⟩
    refine ⟨f, hf, ?_⟩
    simp only
    rcases hrest with ⟨rfl, hnone⟩ | ⟨c, hc, rfl, hpath⟩
    · have hempty : (cached.filter (fun c => c.path == f.path)).isEmpty := by
        rw [List.isEmpty_iff, List.eq_nil_iff_forall_not_mem]
        intro c hc
        rw [List.mem_filter] at hc
        exact hnone c hc.1 (by simpa using hc.2)
      rw [if_pos hempty]
      simp
    · have hmemf : c ∈ cached.filter (fun d => d.path == f.path) := by
        simp [List.mem_filter, hc, hpath]
      have hne : ¬(cached.filter (fun d => d.path == f.path)).isEmpty := by
        rw [List.isEmpty_iff]
        intro h
        simp [h] at hmemf
      rw [if_neg hne]
      exact List.mem_map.mpr ⟨c, hmemf, rfl⟩

theorem mem_changedPaths (us pfx : String) (stat : List StatRow) (p : String) :
    p ∈ changedPaths us pfx stat ↔
      ∃ f ∈ stat, f.stage = us ∧ f.path = p ∧ likePfx pfx p ∧
        ((∀ c ∈ stat, c.stage = "indexed" → c.path ≠ p) ∨
         (∃ c ∈ stat, c.stage = "indexed" ∧ c.path = p ∧
            (sqlNeq f.mtime c.mtime ∨ sqlNeq f.size c.size))) := by
  unfold changedPaths changedPackages
  simp only [List.mem_map, List.mem_filterMap]
  constructor
  · rintro ⟨row, ⟨⟨f, oc⟩, hmem, hif⟩, rfl⟩
    rw [mem_leftJoinIndexed] at hmem
    obtain ⟨hf, hrest⟩ := hmem
    rw [List.mem_filter] at hf
    rcases oc with _ | c
    · rcases hrest with ⟨_, hnone⟩ | ⟨c, _, hoc, _⟩
      swap
      · exact absurd hoc (by simp)
      split at hif
      next hcond =>
        obtain rfl : ChangedRow.mk f.path f.mtime f.size = row := by simpa using hif
        simp only [Bool.and_true] at hcond
        refine ⟨f, hf.1, by simpa using hf.2, rfl, hcond, Or.inl ?_⟩
        intro c hcs hcst hcp
        have : c ∈ stat.filter (fun r => r.stage == "indexed") := by
          simp [List.mem_filter, hcs, hcst]
        exact hnone c this hcp
      next => simp at hif
    · rcases hrest with ⟨hoc, _⟩ | ⟨c', hc', hoc, hpath⟩
      · exact absurd hoc (by simp)
      obtain rfl : c = c' := Option.some.inj hoc
      rw [List.mem_filter] at hc'
      split at hif
      next hcond =>
        obtain rfl : ChangedRow.mk f.path f.mtime f.size = row := by simpa using hif
        rw [Bool.and_eq_true] at hcond
        refine ⟨f, hf.1, by simpa using hf.2, rfl, hcond.1, Or.inr ?_⟩
        refine ⟨c, hc'.1, by simpa using hc'.2, hpath, ?_⟩
        simpa using hcond.2
      next => simp at hif
  · rintro ⟨f, hf, hstage, rfl, hlike, hrest⟩
    by_cases hidx : ∀ c ∈ stat, c.stage = "indexed" → c.path ≠ f.path
    · refine ⟨⟨f.path, f.mtime, f.size⟩, ⟨(f, none), ?_, ?_⟩, rfl⟩
      · rw [mem_leftJoinIndexed]
        refine ⟨List.mem_filter.mpr ⟨hf, by simp [hstage]⟩, Or.inl ⟨rfl, ?_⟩⟩
        intro c hc
        rw [List.mem_filter] at hc
        exact hidx c hc.1 (by simpa using hc.2)
      · simp [hlike]
    · push_neg at hidx
      rcases hrest with hnone | ⟨c, hc, hcst, hcp, hneq⟩
      · obtain ⟨c, hc, hcst, hcp⟩ := hidx
        exact absurd hcp (hnone c hc hcst)
      · refine ⟨⟨f.path, f.mtime, f.size⟩, ⟨(f, some c), ?_, ?_⟩, rfl⟩
        · rw [mem_leftJoinIndexed]
          refine ⟨List.mem_filter.mpr ⟨hf, by simp [hstage]⟩, Or.inr ⟨c, ?_, rfl, hcp⟩⟩
          exact List.mem_filter.mpr ⟨hc, by simp [hcst]⟩
        · have : (sqlNeq f.mtime c.mtime || sqlNeq f.size c.size) = true := by
            rcases hneq with h | h <;> simp [h]
          simp [hlike, this]

/-- C4: for every scope, `changed_packages` yields exactly the keys present in
the configured upstream stage that either have no `'indexed'` stat row or whose
`(mtime, size)` differs from the indexed row's, and a key whose observed and
indexed mtime and size agree is never yielded, regardless of any difference in
the checksum columns. -/
theorem c4_changed_packages_spec (us pfx : String) (stat : List StatRow)
    (hpk : ∀ r1 ∈ stat, ∀ r2 ∈ stat, r1.stage = r2.stage → r1.path = r2.path → r1 = r2) :
    (∀ p, p ∈ changedPaths us pfx stat ↔
      ∃ f ∈ stat, f.stage = us ∧ f.path = p ∧ likePfx pfx p ∧
        ((∀ c ∈ stat, c.stage = "indexed" → c.path ≠ p) ∨
         (∃ c ∈ stat, c.stage = "indexed" ∧ c.path = p ∧
            (sqlNeq f.mtime c.mtime ∨ sqlNeq f.size c.size)))) ∧
    (∀ f c, f ∈ stat → c ∈ stat → f.stage = us → c.stage = "indexed" →
      c.path = f.path → f.mtime = c.mtime → f.size = c.size →
      f.path ∉ changedPaths us pfx stat) := by
  constructor
  · intro p
    exact mem_changedPaths us pfx stat p
  · intro f c hf hc hfst hcst hcp hm hs hmem
    rw [mem_changedPaths] at hmem
    obtain ⟨f', hf', hf'st, hf'p, _, hrest⟩ := hmem
    have hff : f' = f := hpk f' hf' f hf (by rw [hf'st, hfst]) (by rw [hf'p])
    subst hff
    rcases hrest with hnone | ⟨c', hc', hc'st, hc'p, hneq⟩
    · exact hnone c hc hcst hcp
    · have hcc : c' = c := hpk c' hc' c hc (by rw [hc'st, hcst]) (by rw [hc'p, hcp])
      subst hcc
      rw [hm, hs] at hneq
      rcases hneq with h | h <;> rw [sqlNeq_refl] at h <;> exact absurd h (by simp)

/-- Witness for C4 at a concrete table: one observed row whose checksum differs
from its indexed row while mtime and size agree is not reported as changed,
while a second observed row with no indexed row is reported. -/
theorem c4_changed_packages_spec_witness :
    (∀ r1 ∈ ([⟨"fs", "a.conda", some 1, some 2, some "x", none⟩,
              ⟨"indexed", "a.conda", some 1, some 2, some "y", none⟩,
              ⟨"fs", "b.conda", some 3, some 4, none, none⟩] : List StatRow),
     ∀ r2 ∈ ([⟨"fs", "a.conda", some 1, some 2, some "x", none⟩,
              ⟨"indexed", "a.conda", some 1, some 2, some "y", none⟩,
              ⟨"fs", "b.conda", some 3, some 4, none, none⟩] : List StatRow),
       r1.stage = r2.stage → r1.path = r2.path → r1 = r2) ∧
    "a.conda" ∉ changedPaths "fs" ""
      [⟨"fs", "a.conda", some 1, some 2, some "x", none⟩,
       ⟨"indexed", "a.conda", some 1, some 2, some "y", none⟩,
       ⟨"fs", "b.conda", some 3, some 4, none, none⟩] ∧
    "b.conda" ∈ changedPaths "fs" ""
      [⟨"fs", "a.conda", some 1, some 2, some "x", none⟩,
       ⟨"indexed", "a.conda", some 1, some 2, some "y", none⟩,
       ⟨"fs", "b.conda", some 3, some 4, none, none⟩] := by
  have hpk : ∀ r1 ∈ ([⟨"fs", "a.conda", some 1, some 2, some "x", none⟩,
              ⟨"indexed", "a.conda", some 1, some 2, some "y", none⟩,
              ⟨"fs", "b.conda", some 3, some 4, none, none⟩] : List StatRow),
     ∀ r2 ∈ ([⟨"fs", "a.conda", some 1, some 2, some "x", none⟩,
              ⟨"indexed", "a.conda", some 1, some 2, some "y", none⟩,
              ⟨"fs", "b.conda", some 3, some 4, none, none⟩] : List StatRow),
       r1.stage = r2.stage → r1.path = r2.path → r1 = r2 := by decide
  refine ⟨hpk, ?_, ?_⟩
  · exact (c4_changed_packages_spec "fs" "" _ hpk).2
      ⟨"fs", "a.conda", some 1, some 2, some "x", none⟩
      ⟨"indexed", "a.conda", some 1, some 2, some "y", none⟩
      (by decide) (by decide) rfl rfl rfl rfl rfl
  · exact ((c4_changed_packages_spec "fs" "" _ hpk).1 "b.conda").mpr
      ⟨⟨"fs", "b.conda", some 3, some 4, none, none⟩, by decide, rfl, rfl, by decide,
        Or.inl (by decide)⟩

/-! ## The `index_json` table, `indexed_packages` (sqlitecache.py) -/

/-- Models Python `str.endswith`, used to pick the dialect bucket. -/
def endsWithExt (s suffix : String) : Bool := suffix.data.isSuffixOf s.data

/-- The parsed `index.json` of one package, as stored in the `index_json`
table.  `sha256`/`md5` are the fields `store_index_json_stat` copies into
the `'indexed'` stat row (always present after normalization merged
`new_info`); `name` is what `indexed_shards` groups by; the remainder of
the record rides along as its serialized blob. -/
structure IndexJsonRec where
  name : String
  sha256 : String
  md5 : String
  blob : String
deriving DecidableEq, Repr

/-- Insertion step for sorting rows by their first component. -/
def insertByPath {α : Type} (x : String × α) : List (String × α) → List (String × α)
  | [] => [x]
  | y :: ys => if x.1 < y.1 then x :: y :: ys else y :: insertByPath x ys

/-- Sort rows by path, modelling `ORDER BY path`. -/
def sortByPath {α : Type} (l : List (String × α)) : List (String × α) :=
  l.foldr insertByPath []

theorem mem_insertByPath {α : Type} (x y : String × α) (l : List (String × α)) :
    y ∈ insertByPath x l ↔ y = x ∨ y ∈ l := by
  induction l with
  | nil => simp [insertByPath]
  | cons hd tl ih =>
    by_cases h : x.1 < hd.1
    · simp [insertByPath, h]
    · simp [insertByPath, h, ih]
      tauto

theorem mem_sortByPath {α : Type} (x : String × α) (l : List (String × α)) :
    x ∈ sortByPath l ↔ x ∈ l := by
  induction l with
  | nil => simp [sortByPath]
  | cons hd tl ih =>
    simp only [sortByPath, List.foldr] at *
    rw [mem_insertByPath, ih, List.mem_cons]

/-- SQL `FROM stat JOIN index_json USING (path) WHERE stat.stage = ?
ORDER BY path`, shared shape of `indexed_packages` and `run_exports`. -/
def statJoinIndexJson (us : String) (stat : List StatRow)
    (ij : List (String × IndexJsonRec)) : List (String × IndexJsonRec) :=
  sortByPath ((stat.filter (fun r => r.stage == us)).flatMap
    (fun s => (ij.filter (fun r => r.1 == s.path)).map (fun r => (s.path, r.2))))

/-- One iteration of the `indexed_packages` loop: a joined row is put into
the `packages` bucket when its path ends in `.tar.bz2`, into the
`packages.conda` bucket when it ends in `.conda`, and is otherwise dropped
with a warning. -/
def bucketStep (buckets : List (String × IndexJsonRec) × List (String × IndexJsonRec))
    (row : String × IndexJsonRec) :
    List (String × IndexJsonRec) × List (String × IndexJsonRec) :=
  if endsWithExt row.1 extV1 then (aset buckets.1 row.1 row.2, buckets.2)
  else if endsWithExt row.1 extV2 then (buckets.1, aset buckets.2 row.1 row.2)
  else buckets

/-- Embedding of `CondaIndexCache.indexed_packages`.  Note the join is
against the configured `upstream_stage` (default `'fs'`), not the
`'indexed'` stage. -/
def indexedPackages (us : String) (stat : List StatRow)
    (ij : List (String × IndexJsonRec)) :
    List (String × IndexJsonRec) × List (String × IndexJsonRec) :=
  (statJoinIndexJson us stat ij).foldl bucketStep ([], [])

/-- No filename ends in both recognized extensions (they end in different
characters). -/
theorem ends_V1_V2_absurd (s : String) (h1 : endsWithExt s extV1 = true)
    (h2 : endsWithExt s extV2 = true) : False := by
  simp only [endsWithExt, extV1, extV2, List.isSuffixOf] at h1 h2
  have e1 : (".tar.bz2".data.reverse) = ['2', 'z', 'b', '.', 'r', 'a', 't', '.'] := by
    decide
  have e2 : (".conda".data.reverse) = ['a', 'd', 'n', 'o', 'c', '.'] := by
    decide
  rw [e1] at h1
  rw [e2] at h2
  cases hrev : s.data.reverse with
  | nil =>
    rw [hrev] at h1
    simp [List.isPrefixOf] at h1
  | cons b bs =>
    rw [hrev] at h1 h2
    simp only [List.isPrefixOf, Bool.and_eq_true, beq_iff_eq] at h1 h2
    obtain ⟨hb1, -⟩ := h1
    obtain ⟨hb2, -⟩ := h2
    rw [← hb1] at hb2
    exact absurd hb2 (by decide)

theorem mem_statJoinIndexJson (us : String) (stat : List StatRow)
    (ij : List (String × IndexJsonRec)) (k : String) (r : IndexJsonRec) :
    (k, r) ∈ statJoinIndexJson us stat ij ↔
      (∃ s ∈ stat, s.stage = us ∧ s.path = k) ∧ (k, r) ∈ ij := by
  unfold statJoinIndexJson
  rw [mem_sortByPath, List.mem_flatMap]
  constructor
  · rintro ⟨s, hs, hmem⟩
    rw [List.mem_filter] at hs
    simp only [List.mem_map] at hmem
    obtain ⟨e, he, heq⟩ := hmem
    rw [List.mem_filter] at he
    obtain ⟨rfl, rfl⟩ : s.path = k ∧ e.2 = r := by
      constructor
      · exact (Prod.mk.injEq _ _ _ _ ▸ heq).1
      · exact (Prod.mk.injEq _ _ _ _ ▸ heq).2
    refine ⟨⟨s, hs.1, by simpa using hs.2, rfl⟩, ?_⟩
    have he1 : e.1 = s.path := by simpa using he.2
    have : e = (s.path, e.2) := Prod.ext he1 rfl
    rw [this] at he
    exact he.1
  · rintro ⟨⟨s, hs, hstage, rfl⟩, hij⟩
    refine ⟨s, List.mem_filter.mpr ⟨hs, by simp [hstage]⟩, ?_⟩
    simp only [List.mem_map]
    exact ⟨(s.path, r), List.mem_filter.mpr ⟨hij, by simp⟩, rfl⟩

theorem lookup_foldl_fst (rows : List (String × IndexJsonRec))
    (pk ck : List (String × IndexJsonRec)) (k : String) :
    (alookup (rows.foldl bucketStep (pk, ck)).1 k).isSome = true ↔
      (alookup pk k).isSome = true ∨
        (endsWithExt k extV1 = true ∧ k ∈ rows.map Prod.fst) := by
  induction rows generalizing pk ck with
  | nil => simp
  | cons hd tl ih =>
    rcases hd with ⟨p, rec⟩
    rw [List.foldl_cons]
    by_cases h1 : endsWithExt p extV1 = true
    · have hstep : bucketStep (pk, ck) (p, rec) = (aset pk p rec, ck) := by
        simp [bucketStep, h1]
      rw [hstep, ih]
      by_cases hk : k = p
      · subst hk
        constructor
        · intro _
          exact Or.inr ⟨h1, by simp⟩
        · intro _
          exact Or.inl (by simp [alookup_aset_self])
      · rw [alookup_aset_ne pk p k rec hk]
        simp only [List.map_cons, List.mem_cons]
        constructor
        · rintro (h | ⟨hext, hm⟩)
          · exact Or.inl h
          · exact Or.inr ⟨hext, Or.inr hm⟩
        · rintro (h | ⟨hext, hm | hm⟩)
          · exact Or.inl h
          · exact absurd hm hk
          · exact Or.inr ⟨hext, hm⟩
    · by_cases h2 : endsWithExt p extV2 = true
      · have hstep : bucketStep (pk, ck) (p, rec) = (pk, aset ck p rec) := by
          simp [bucketStep, h1, h2]
        rw [hstep, ih]
        simp only [List.map_cons, List.mem_cons]
        constructor
        · rintro (h | ⟨hext, hm⟩)
          · exact Or.inl h
          · exact Or.inr ⟨hext, Or.inr hm⟩
        · rintro (h | ⟨hext, hm | hm⟩)
          · exact Or.inl h
          · exact absurd (hm ▸ hext) h1
          · exact Or.inr ⟨hext, hm⟩
      · have hstep : bucketStep (pk, ck) (p, rec) = (pk, ck) := by
          simp [bucketStep, h1, h2]
        rw [hstep, ih]
        simp only [List.map_cons, List.mem_cons]
        constructor
        · rintro (h | ⟨hext, hm⟩)
          · exact Or.inl h
          · exact Or.inr ⟨hext, Or.inr hm⟩
        · rintro (h | ⟨hext, hm | hm⟩)
          · exact Or.inl h
          · exact absurd (hm ▸ hext) h1
          · exact Or.inr ⟨hext, hm⟩

theorem lookup_foldl_snd (rows : List (String × IndexJsonRec))
    (pk ck : List (String × IndexJsonRec)) (k : String) :
    (alookup (rows.foldl bucketStep (pk, ck)).2 k).isSome = true ↔
      (alookup ck k).isSome = true ∨
        (endsWithExt k extV2 = true ∧ k ∈ rows.map Prod.fst) := by
  induction rows generalizing pk ck with
  | nil => simp
  | cons hd tl ih =>
    rcases hd with ⟨p, rec⟩
    rw [List.foldl_cons]
    by_cases h1 : endsWithExt p extV1 = true
    · have hstep : bucketStep (pk, ck) (p, rec) = (aset pk p rec, ck) := by
        simp [bucketStep, h1]
      rw [hstep, ih]
      simp only [List.map_cons, List.mem_cons]
      constructor
      · rintro (h | ⟨hext, hm⟩)
        · exact Or.inl h
        · exact Or.inr ⟨hext, Or.inr hm⟩
      · rintro (h | ⟨hext, hm | hm⟩)
        · exact Or.inl h
        · exact (ends_V1_V2_absurd p h1 (hm ▸ hext)).elim
        · exact Or.inr ⟨hext, hm⟩
    · by_cases h2 : endsWithExt p extV2 = true
      · have hstep : bucketStep (pk, ck) (p, rec) = (pk, aset ck p rec) := by
          simp [bucketStep, h1, h2]
        rw [hstep, ih]
        by_cases hk : k = p
        · subst hk
          constructor
          · intro _
            exact Or.inr ⟨h2, by simp⟩
          · intro _
            exact Or.inl (by simp [alookup_aset_self])
        · rw [alookup_aset_ne ck p k rec hk]
          simp only [List.map_cons, List.mem_cons]
          constructor
          · rintro (h | ⟨hext, hm⟩)
            · exact Or.inl h
            · exact Or.inr ⟨hext, Or.inr hm⟩
          · rintro (h | ⟨hext, hm | hm⟩)
            · exact Or.inl h
            · exact absurd hm hk
            · exact Or.inr ⟨hext, hm⟩
      · have hstep : bucketStep (pk, ck) (p, rec) = (pk, ck) := by
          simp [bucketStep, h1, h2]
        rw [hstep, ih]
        simp only [List.map_cons, List.mem_cons]
        constructor
        · rintro (h | ⟨hext, hm⟩)
          · exact Or.inl h
          · exact Or.inr ⟨hext, Or.inr hm⟩
        · rintro (h | ⟨hext, hm | hm⟩)
          · exact Or.inl h
          · exact absurd (hm ▸ hext) h2
          · exact Or.inr ⟨hext, hm⟩

theorem mem_map_fst_statJoin (us : String) (stat : List StatRow)
    (ij : List (String × IndexJsonRec)) (k : String) :
    k ∈ (statJoinIndexJson us stat ij).map Prod.fst ↔
      (∃ s ∈ stat, s.stage = us ∧ s.path = k) ∧ ∃ e ∈ ij, e.1 = k := by
  rw [List.mem_map]
  constructor
  · rintro ⟨⟨k', r⟩, hmem, rfl⟩
    rw [mem_statJoinIndexJson] at hmem
    exact ⟨hmem.1, ⟨(k', r), hmem.2, rfl⟩⟩
  · rintro ⟨hs, ⟨e, he, hek⟩⟩
    refine ⟨(k, e.2), ?_, rfl⟩
    rw [mem_statJoinIndexJson]
    have heq : e = (k, e.2) := Prod.ext hek rfl
    exact ⟨hs, heq ▸ he⟩

/-- C2 (amended): `indexed_packages` streams `index_json` rows filtered by
the join to the configured upstream stage (default `'fs'`, i.e. the
observed stage), not the `'indexed'` stage: a key appears in the emitted
`packages` (resp. `packages.conda`) map iff it has an `index_json` row, a
stat row whose stage equals the upstream stage, and a filename ending in
`.tar.bz2` (resp. `.conda`). -/
theorem c2_indexed_packages_upstream_join (us : String) (stat : List StatRow)
    (ij : List (String × IndexJsonRec)) (k : String) :
    ((alookup (indexedPackages us stat ij).1 k).isSome = true ↔
      (∃ s ∈ stat, s.stage = us ∧ s.path = k) ∧ (∃ e ∈ ij, e.1 = k) ∧
        endsWithExt k extV1 = true) ∧
    ((alookup (indexedPackages us stat ij).2 k).isSome = true ↔
      (∃ s ∈ stat, s.stage = us ∧ s.path = k) ∧ (∃ e ∈ ij, e.1 = k) ∧
        endsWithExt k extV2 = true) := by
  constructor
  · rw [indexedPackages, lookup_foldl_fst, mem_map_fst_statJoin]
    simp only [alookup]
    tauto
  · rw [indexedPackages, lookup_foldl_snd, mem_map_fst_statJoin]
    simp only [alookup]
    tauto

/-- A small concrete record used in counterexamples and witnesses. -/
def sampleRec : IndexJsonRec := ⟨"a", "sha", "md5", "{}"⟩

/-- C2 counterexample: with the default upstream stage `'fs'`, a key that has
an `index_json` row and an `'indexed'`-stage stat row — but no observed row —
appears in neither emitted map, refuting the claim that a key appears iff it
has an `index_json` row and a stat row whose stage is `'indexed'`. -/
theorem c2_counterexample :
    (∃ s ∈ [StatRow.mk "indexed" "a.conda" (some 1) (some 2) none none],
        s.stage = "indexed" ∧ s.path = "a.conda") ∧
    (∃ e ∈ [("a.conda", sampleRec)], e.1 = "a.conda") ∧
    alookup (indexedPackages "fs"
        [StatRow.mk "indexed" "a.conda" (some 1) (some 2) none none]
        [("a.conda", sampleRec)]).1 "a.conda" = none ∧
    alookup (indexedPackages "fs"
        [StatRow.mk "indexed" "a.conda" (some 1) (some 2) none none]
        [("a.conda", sampleRec)]).2 "a.conda" = none := by
  refine ⟨⟨_, List.mem_singleton.mpr rfl, rfl, rfl⟩,
          ⟨_, List.mem_singleton.mpr rfl, rfl⟩, ?_, ?_⟩ <;> decide

/-! ## The package extractor and its failure policy (sqlitecache.py) -/

/-- PATH_TO_TABLE from sqlitecache.py: interior member name → table name. -/
def pathToTable : List (String × String) :=
  [("info/index.json", "index_json"),
   ("info/about.json", "about"),
   ("info/paths.json", "paths"),
   ("info/recipe/meta.yaml", "recipe"),
   ("info/recipe/meta.yaml.rendered", "recipe"),
   ("info/meta.yaml", "recipe"),
   ("info/run_exports.json", "run_exports"),
   ("info/post_install.json", "post_install"),
   ("info/icon.png", "icon")]

/-- The cache database: the `stat` table, the `index_json` table and the
remaining metadata tables (rows keyed `(table, path)`). -/
structure CacheDB where
  stat : List StatRow
  indexJson : List (String × IndexJsonRec)
  meta : List ((String × String) × String)
deriving DecidableEq, Repr

/-- SQL `INSERT OR REPLACE` into `stat`: a row with the same `(stage, path)`
primary key is replaced, otherwise the new row is added. -/
def statUpsert (stat : List StatRow) (row : StatRow) : List StatRow :=
  if stat.any (fun r => r.stage == row.stage && r.path == row.path) then
    stat.map (fun r => if r.stage == row.stage && r.path == row.path then row else r)
  else stat ++ [row]

theorem mem_statUpsert_self (stat : List StatRow) (row : StatRow) :
    row ∈ statUpsert stat row := by
  unfold statUpsert
  split
  next h =>
    rw [List.any_eq_true] at h
    obtain ⟨r, hr, hcond⟩ := h
    rw [List.mem_map]
    exact ⟨r, hr, by rw [if_pos hcond]⟩
  next => simp

/-- Embedding of `CondaIndexCache.store` plus `store_index_json_stat`:
inside one transaction, write each extracted member to its table (`paths`
is in TABLE_NO_CACHE; `index_json` is deferred to the end), insert-or-replace
the `index_json` row, and insert-or-replace the `('indexed', path)` stat row
carrying `(mtime, size, sha256, md5)` with the checksums taken from the
record. -/
def storePackage (db : CacheDB) (pfx fn : String) (size mtime : Option Int)
    (members : List (String × String)) (rec : IndexJsonRec) : CacheDB :=
  let dbp := pfx ++ fn
  let meta' := members.foldl (fun m kv =>
    match alookup pathToTable kv.1 with
    | some tbl =>
        if tbl = "paths" ∨ tbl = "index_json" then m
        else aset m (tbl, dbp) kv.2
    | none => m) db.meta
  { stat := statUpsert db.stat ⟨"indexed", dbp, mtime, size, some rec.sha256, some rec.md5⟩,
    indexJson := aset db.indexJson dbp rec,
    meta := meta' }

/-- The five recoverable extraction errors caught by `_extract_to_cache`:
`KeyError`, `EOFError`, `json.JSONDecodeError`, `zipfile.BadZipFile` and
`OSError`. -/
inductive ExtractErr
  | keyMissing
  | truncated
  | malformedJson
  | malformedArchive
  | io
deriving DecidableEq, Repr

/-- Result of the archive streaming, member selection, JSON/recipe parsing
and checksumming that `extract_to_cache_unconditional` performs before its
final `store` call (conda_package_streaming, json and hashlib are external
collaborators): either one of the five recoverable errors, or the extracted
members together with the normalized record (filter fields dropped,
`md5/sha256/size` merged in). -/
def ExtractOutcome : Type :=
  Except ExtractErr (List (String × String) × IndexJsonRec)

/-- Embedding of `CondaIndexCache._extract_to_cache`: on success the
members and record are written by `store` — one transaction, so an error
raised inside it also leaves no partial rows — and the record is returned;
on a recoverable error the exception is logged and `(fn, mtime, size, None)`
returned with the database untouched. -/
def extractToCache (db : CacheDB) (pfx fn : String) (mtime size : Option Int)
    (outcome : ExtractOutcome) :
    (String × Option Int × Option Int × Option IndexJsonRec) × CacheDB :=
  match outcome with
  | .error _ => ((fn, mtime, size, none), db)
  | .ok (members, rec) =>
      ((fn, mtime, size, some rec), storePackage db pfx fn size mtime members rec)

/-- C5: on any of the five recoverable errors the extractor returns
`(key, mtime, size, none)` instead of raising and writes nothing: the
database — its `'indexed'` stat rows, `index_json` rows and metadata tables
— is exactly as before, the changed-package query is unaffected, and a key
that satisfied the "changed" predicate before the failed extraction still
satisfies it; a successful extraction, by contrast, does write an
`'indexed'` stat row for the key. -/
theorem c5_extract_failure_policy (db : CacheDB) (pfx fn : String)
    (mtime size : Option Int) (e : ExtractErr) :
    (extractToCache db pfx fn mtime size (.error e)).1 = (fn, mtime, size, none) ∧
    (extractToCache db pfx fn mtime size (.error e)).2 = db ∧
    (∀ us pl, changedPaths us pl ((extractToCache db pfx fn mtime size (.error e)).2).stat
        = changedPaths us pl db.stat) ∧
    (∀ us pl, fn ∈ changedPaths us pl db.stat →
        fn ∈ changedPaths us pl ((extractToCache db pfx fn mtime size (.error e)).2).stat) ∧
    (∀ members rec,
        ∃ r ∈ (extractToCache db pfx fn mtime size (.ok (members, rec))).2.stat,
          r.stage = "indexed" ∧ r.path = pfx ++ fn) := by
  refine ⟨rfl, rfl, fun us pl => rfl, fun us pl h => h, ?_⟩
  intro members rec
  refine ⟨⟨"indexed", pfx ++ fn, mtime, size, some rec.sha256, some rec.md5⟩, ?_, rfl, rfl⟩
  simp only [extractToCache, storePackage]
  exact mem_statUpsert_self _ _

/-- A concrete database with one observed (`'fs'`) row and nothing else. -/
def c5db : CacheDB :=
  ⟨[⟨"fs", "b.conda", some 3, some 4, none, none⟩], [], []⟩

/-- Witness for C5 at a concrete database: a key that was changed (observed
but never indexed) is still reported changed after a failed extraction, and
the failure returns the `(key, mtime, size, none)` tuple. -/
theorem c5_extract_failure_policy_witness :
    (extractToCache c5db "" "b.conda" (some 3) (some 4)
        (Except.error ExtractErr.io)).1 = ("b.conda", some 3, some 4, none) ∧
    "b.conda" ∈ changedPaths "fs" ""
      ((extractToCache c5db "" "b.conda" (some 3) (some 4)
          (Except.error ExtractErr.io)).2).stat := by
  have h := c5_extract_failure_policy c5db "" "b.conda" (some 3) (some 4) ExtractErr.io
  exact ⟨h.1, h.2.2.2.1 "fs" "" (by decide)⟩

/-! ## Patch-instruction application (`_apply_instructions`, index/__init__.py) -/

/-- JSON-like values carried in repodata documents and patch overlays. -/
inductive JValue where
  | jnull : JValue
  | jbool : Bool → JValue
  | jnum : Int → JValue
  | jstr : String → JValue
  | jarr : List JValue → JValue
  | jobj : List (String × JValue) → JValue

/-- A JSON object: the Python dict, as an insertion-ordered association list. -/
abbrev JObj := List (String × JValue)

mutual
/-- Structural equality of JSON values, used only for the `base == new`
early return of `merge_or_update_dict`.  (Python dict equality ignores
insertion order; since the shortcut returns `base` exactly when updating
would change nothing, an order-sensitive test does not change the
function's result.) -/
def jvalBeq : JValue → JValue → Bool
  | .jnull, .jnull => true
  | .jbool a, .jbool b => a == b
  | .jnum a, .jnum b => a == b
  | .jstr a, .jstr b => a == b
  | .jarr a, .jarr b => jarrBeq a b
  | .jobj a, .jobj b => jobjBeq a b
  | _, _ => false

/-- Elementwise equality of JSON arrays. -/
def jarrBeq : List JValue → List JValue → Bool
  | [], [] => true
  | a :: as, b :: bs => jvalBeq a b && jarrBeq as bs
  | _, _ => false

/-- Pairwise equality of JSON objects. -/
def jobjBeq : JObj → JObj → Bool
  | [], [] => true
  | (k1, v1) :: as, (k2, v2) :: bs => k1 == k2 && jvalBeq v1 v2 && jobjBeq as bs
  | _, _ => false
end

/-- Python truthiness of a JSON value: None, False, 0, and empty
strings/arrays/objects are falsy. -/
def pyTruthy : JValue → Bool
  | .jnull => false
  | .jbool b => b
  | .jnum n => n != 0
  | .jstr s => !s.isEmpty
  | .jarr xs => !xs.isEmpty
  | .jobj kvs => !kvs.isEmpty

mutual
/-- Embedding of `utils_build.merge_or_update_dict(base, new, merge=False,
add_missing_keys=am)` as `_apply_instructions` invokes it: the top-level
calls use `add_missing_keys=False`, the recursive call uses the default
`True`; `merge` is `False` on every reachable call, so only the
`merge=False` branches are embedded. -/
def updateDict (base new : JObj) (addMissing : Bool) : JObj :=
  if jobjBeq base new then base else updateGo base new addMissing
termination_by (sizeOf new, 2)

/-- The `for key, value in new.items()` loop of `merge_or_update_dict`. -/
def updateGo (base new : JObj) (addMissing : Bool) : JObj :=
  match new with
  | [] => base
  | (k, v) :: rest => updateGo (updateKey base k v addMissing) rest addMissing
termination_by (sizeOf new, 1)

/-- One loop iteration: skip keys missing from `base` unless
`add_missing_keys`; recurse into dict values; assign list values
(`merge=False`); on a scalar, delete the key when the value is `None` and
present, else assign.  When the override value is a dict but the existing
value is not, CPython would substring-test or raise; that case — unreachable
for record-shaped repodata — keeps `base` unchanged here. -/
def updateKey (base : JObj) (k : String) (v : JValue) (addMissing : Bool) : JObj :=
  if (alookup base k).isSome || addMissing then
    match v with
    | .jobj vks =>
        match (alookup base k).getD (.jobj vks) with
        | .jobj bks => aset base k (.jobj (updateDict bks vks true))
        | _ => base
    | .jarr xs => aset base k (.jarr xs)
    | .jnull => if (alookup base k).isSome then aerase base k else aset base k .jnull
    | other => aset base k other
  else base
termination_by (sizeOf v, 2)
end

/-- The repodata fields `_apply_instructions` manipulates: the two dialect
buckets and the top-level `removed` list (`setdefault`ed to `[]`). -/
structure Repodata where
  packages : JObj
  packagesConda : JObj
  removed : List String

/-- A patch-instruction document; absent sections are the empty defaults
that `instructions.get(..., {})` / `(...)` supply. -/
structure Instructions where
  packages : JObj
  packagesConda : JObj
  revoke : List String
  remove : List String

/-- Build a dict from key-value pairs, later pairs overwriting earlier ones
(Python dict-comprehension semantics for `new_pkg_fixes`). -/
def dictOfPairs (l : List (String × JValue)) : JObj :=
  l.foldl (fun d kv => aset d kv.1 kv.2) []

/-- Scan replacing every non-overlapping occurrence of ".tar.bz2" by
".conda", leftmost first — Python `str.replace` semantics specialized to
the two extension constants. -/
def replaceV1V2 : List Char → List Char
  | [] => []
  | '.' :: 't' :: 'a' :: 'r' :: '.' :: 'b' :: 'z' :: '2' :: rest =>
      '.' :: 'c' :: 'o' :: 'n' :: 'd' :: 'a' :: replaceV1V2 rest
  | c :: rest => c :: replaceV1V2 rest

/-- `fn.replace(CONDA_PACKAGE_EXTENSION_V1, CONDA_PACKAGE_EXTENSION_V2)`. -/
def replaceExt (fn : String) : String := ⟨replaceV1V2 fn.data⟩

/-- The key used against the `packages.conda` bucket in the revoke/remove
loops: substituted only when the name ends with the legacy extension. -/
def condaKey (fn : String) : String :=
  if endsWithExt fn extV1 then replaceExt fn else fn

/-- Mark a record revoked: set `revoked = True`, then append the sentinel
`"package_has_been_revoked"` to its `depends` array.  A record whose
`depends` is missing or not an array would raise in CPython after setting
`revoked`; that case leaves `depends` untouched here. -/
def revokeRecord (rec : JValue) : JValue :=
  match rec with
  | .jobj kvs =>
      let kvs1 := aset kvs "revoked" (.jbool true)
      match alookup kvs1 "depends" with
      | some (.jarr deps) =>
          .jobj (aset kvs1 "depends" (.jarr (deps ++ [.jstr "package_has_been_revoked"])))
      | _ => .jobj kvs1
  | other => other

/-- One iteration of the `revoke` loop over both buckets. -/
def applyRevokeOne (st : JObj × JObj) (fn : String) : JObj × JObj :=
  let pk' := match alookup st.1 fn with
    | some rec => aset st.1 fn (revokeRecord rec)
    | none => st.1
  let fn2 := condaKey fn
  let ck' := match alookup st.2 fn2 with
    | some rec => aset st.2 fn2 (revokeRecord rec)
    | none => st.2
  (pk', ck')

/-- The `revoke` loop of `_apply_instructions`. -/
def applyRevokes (pk ck : JObj) (revoke : List String) : JObj × JObj :=
  revoke.foldl applyRevokeOne (pk, ck)

/-- One iteration of the `remove` loop: `pop` the original name from
`packages` and the substituted name from `packages.conda`, appending each
name whose popped record was truthy to `removed`. -/
def applyRemoveOne (st : JObj × JObj × List String) (fn : String) :
    JObj × JObj × List String :=
  let removed1 := match alookup st.1 fn with
    | some rec => if pyTruthy rec then st.2.2 ++ [fn] else st.2.2
    | none => st.2.2
  let pk' := aerase st.1 fn
  let fn2 := condaKey fn
  let removed2 := match alookup st.2.1 fn2 with
    | some rec => if pyTruthy rec then removed1 ++ [fn2] else removed1
    | none => removed1
  let ck' := aerase st.2.1 fn2
  (pk', ck', removed2)

/-- The `remove` loop of `_apply_instructions`. -/
def applyRemoves (pk ck : JObj) (removed : List String) (remove : List String) :
    JObj × JObj × List String :=
  remove.foldl applyRemoveOne (pk, ck, removed)

/-- The state of the two buckets after the overlay merges (`packages`
overrides, the extension-substituted `new_pkg_fixes`, then the explicit
`packages.conda` section) and the `revoke` loop — the point at which the
`remove` loop of `_apply_instructions` starts. -/
def midState (rd : Repodata) (ins : Instructions) : JObj × JObj :=
  let pk1 := updateDict rd.packages ins.packages false
  let newPkgFixes := dictOfPairs (ins.packages.map (fun kv => (replaceExt kv.1, kv.2)))
  let ck1 := updateDict (updateDict rd.packagesConda newPkgFixes false)
      ins.packagesConda false
  applyRevokes pk1 ck1 ins.revoke

/-- Embedding of `_apply_instructions`: overlays, revocations, removals,
and the final in-place sort of `removed`.  (The `subdir` argument is unused
in the source as well.) -/
def applyInstructions (_subdir : String) (rd : Repodata) (ins : Instructions) :
    Repodata :=
  let mid := midState rd ins
  let fin := applyRemoves mid.1 mid.2 rd.removed ins.remove
  { packages := fin.1, packagesConda := fin.2.1, removed := sortStrings fin.2.2 }

/-- After the remove loop, every removed name is absent from `packages`. -/
theorem applyRemoves_lookup_pk (remove : List String) (pk ck : JObj)
    (removed : List String) (fn : String) (h : fn ∈ remove ∨ alookup pk fn = none) :
    alookup (applyRemoves pk ck removed remove).1 fn = none := by
  induction remove generalizing pk ck removed with
  | nil =>
    rcases h with h | h
    · simp at h
    · exact h
  | cons g rest ih =>
    show alookup (applyRemoves (aerase pk g) (aerase ck (condaKey g)) _ rest).1 fn = none
    rcases h with h | h
    · rcases List.mem_cons.mp h with rfl | h
      · exact ih _ _ _ (Or.inr (by rw [alookup_aerase]; simp))
      · exact ih _ _ _ (Or.inl h)
    · refine ih _ _ _ (Or.inr ?_)
      rw [alookup_aerase]
      by_cases hg : fn = g <;> simp [hg, h]

/-- After the remove loop, every substituted name is absent from
`packages.conda`. -/
theorem applyRemoves_lookup_ck (remove : List String) (pk ck : JObj)
    (removed : List String) (x : String)
    (h : (∃ fn ∈ remove, condaKey fn = x) ∨ alookup ck x = none) :
    alookup (applyRemoves pk ck removed remove).2.1 x = none := by
  induction remove generalizing pk ck removed with
  | nil =>
    rcases h with ⟨fn, hfn, _⟩ | h
    · simp at hfn
    · exact h
  | cons g rest ih =>
    show alookup (applyRemoves (aerase pk g) (aerase ck (condaKey g)) _ rest).2.1 x = none
    rcases h with ⟨fn, hfn, hckey⟩ | h
    · rcases List.mem_cons.mp hfn with rfl | hfn
      · refine ih _ _ _ (Or.inr ?_)
        rw [alookup_aerase]
        simp [hckey.symm]
      · exact ih _ _ _ (Or.inl ⟨fn, hfn, hckey⟩)
    · refine ih _ _ _ (Or.inr ?_)
      rw [alookup_aerase]
      by_cases hg : x = condaKey g <;> simp [hg, h]

/-- A truthy lookup: the popped value exists and is truthy (Python's
`if popped:`). -/
def truthyAt (b : JObj) (x : String) : Prop :=
  ∃ v, alookup b x = some v ∧ pyTruthy v = true

/-- Characterization of the names appended to `removed` by the remove
loop, in terms of the buckets as they stood when the loop started. -/
theorem applyRemoves_removed_mem (remove : List String) (pk ck : JObj)
    (removed : List String) (x : String) :
    x ∈ (applyRemoves pk ck removed remove).2.2 ↔
      x ∈ removed ∨ (x ∈ remove ∧ truthyAt pk x) ∨
        (∃ fn ∈ remove, condaKey fn = x ∧ truthyAt ck x) := by
  induction remove generalizing pk ck removed with
  | nil => simp [applyRemoves]
  | cons g rest ih =>
    have hstep : applyRemoves pk ck removed (g :: rest) =
        applyRemoves (aerase pk g) (aerase ck (condaKey g))
          (applyRemoveOne (pk, ck, removed) g).2.2 rest := rfl
    rw [hstep, ih]
    have hrm : ∀ y, y ∈ (applyRemoveOne (pk, ck, removed) g).2.2 ↔
        y ∈ removed ∨ (y = g ∧ truthyAt pk g) ∨
          (y = condaKey g ∧ truthyAt ck (condaKey g)) := by
      intro y
      unfold applyRemoveOne truthyAt
      rcases hpk : alookup pk g with _ | v1 <;>
        rcases hck : alookup ck (condaKey g) with _ | v2
      · simp [hpk, hck]
      · by_cases ht2 : pyTruthy v2 = true <;>
          simp [hpk, hck, ht2, List.mem_append]
      · by_cases ht1 : pyTruthy v1 = true <;>
          simp [hpk, hck, ht1, List.mem_append]
      · by_cases ht1 : pyTruthy v1 = true <;> by_cases ht2 : pyTruthy v2 = true <;>
          simp [hpk, hck, ht1, ht2, List.mem_append]
    have htpk : ∀ y, truthyAt (aerase pk g) y ↔ y ≠ g ∧ truthyAt pk y := by
      intro y
      unfold truthyAt
      rw [alookup_aerase]
      by_cases hy : y = g <;> simp [hy]
    have htck : ∀ y, truthyAt (aerase ck (condaKey g)) y ↔
        y ≠ condaKey g ∧ truthyAt ck y := by
      intro y
      unfold truthyAt
      rw [alookup_aerase]
      by_cases hy : y = condaKey g <;> simp [hy]
    rw [hrm x]
    constructor
    · rintro ((h | ⟨rfl, ht⟩ | ⟨rfl, ht⟩) | ⟨hx, ht⟩ | ⟨fn, hfn, hckey, ht⟩)
      · exact Or.inl h
      · exact Or.inr (Or.inl ⟨List.mem_cons_self _ _, ht⟩)
      · exact Or.inr (Or.inr ⟨g, List.mem_cons_self _ _, rfl, ht⟩)
      · rw [htpk] at ht
        exact Or.inr (Or.inl ⟨List.mem_cons_of_mem _ hx, ht.2⟩)
      · rw [htck] at ht
        exact Or.inr (Or.inr ⟨fn, List.mem_cons_of_mem _ hfn, hckey, ht.2⟩)
    · rintro (h | ⟨hx, ht⟩ | ⟨fn, hfn, hckey, ht⟩)
      · exact Or.inl (Or.inl h)
      · rcases List.mem_cons.mp hx with rfl | hx
        · exact Or.inl (Or.inr (Or.inl ⟨rfl, ht⟩))
        · by_cases hg : x = g
          · subst hg
            exact Or.inl (Or.inr (Or.inl ⟨rfl, ht⟩))
          · exact Or.inr (Or.inl ⟨hx, (htpk x).mpr ⟨hg, ht⟩⟩)
      · rcases List.mem_cons.mp hfn with rfl | hfn
        · exact Or.inl (Or.inr (Or.inr ⟨hckey.symm, hckey ▸ ht⟩))
        · by_cases hg : x = condaKey g
          · subst hckey
            exact Or.inl (Or.inr (Or.inr ⟨hg, hg ▸ ht⟩))
          · exact Or.inr (Or.inr ⟨fn, hfn, hckey, (htck x).mpr ⟨hg, ht⟩⟩)

/-- C1 (amended): after `_apply_instructions`, (i) every filename of the
`remove` list is absent from `packages` and its `.conda`-substituted form
absent from `packages.conda`; (ii) the document's `removed` field is
sorted; (iii) `removed` contains exactly the prior `removed` entries plus
those names — the original name for the `packages` bucket, the
extension-substituted name for `packages.conda` — whose entry was present
and truthy in the respective bucket when the remove loop started (after
overlays and revocations).  In particular a filename of `remove` with no
corresponding entry contributes nothing. -/
theorem c1_apply_instructions_removed (subdir : String) (rd : Repodata)
    (ins : Instructions) :
    (∀ fn ∈ ins.remove,
        alookup (applyInstructions subdir rd ins).packages fn = none ∧
        alookup (applyInstructions subdir rd ins).packagesConda (condaKey fn) = none) ∧
    (applyInstructions subdir rd ins).removed.Pairwise (· ≤ ·) ∧
    (∀ x, x ∈ (applyInstructions subdir rd ins).removed ↔
        x ∈ rd.removed ∨
        (x ∈ ins.remove ∧ truthyAt (midState rd ins).1 x) ∨
        (∃ fn ∈ ins.remove, condaKey fn = x ∧ truthyAt (midState rd ins).2 x)) := by
  refine ⟨?_, ?_, ?_⟩
  · intro fn hfn
    exact ⟨applyRemoves_lookup_pk ins.remove (midState rd ins).1 (midState rd ins).2
        rd.removed fn (Or.inl hfn),
      applyRemoves_lookup_ck ins.remove (midState rd ins).1 (midState rd ins).2
        rd.removed (condaKey fn) (Or.inl ⟨fn, hfn, rfl⟩)⟩
  · exact sorted_sortStrings _
  · intro x
    have hred : (applyInstructions subdir rd ins).removed =
        sortStrings (applyRemoves (midState rd ins).1 (midState rd ins).2
          rd.removed ins.remove).2.2 := rfl
    rw [hred, mem_sortStrings, applyRemoves_removed_mem]

/-- A small truthy record for concrete patch instances. -/
def c1rec : JValue := JValue.jobj [("name", JValue.jstr "a")]

/-- Concrete repodata for the C1 witness: one package per bucket. -/
def c1rd : Repodata :=
  ⟨[("a.tar.bz2", c1rec)], [("a.conda", c1rec)], []⟩

/-- Concrete instructions for the C1 witness: remove the legacy name. -/
def c1ins : Instructions := ⟨[], [], [], ["a.tar.bz2"]⟩

/-- Witness for C1 (amended) at a concrete document: removing
"a.tar.bz2" empties both buckets (the conda bucket through the substituted
name) and leaves a sorted `removed`. -/
theorem c1_apply_instructions_removed_witness :
    alookup (applyInstructions "osx-64" c1rd c1ins).packages "a.tar.bz2" = none ∧
    alookup (applyInstructions "osx-64" c1rd c1ins).packagesConda "a.conda" = none ∧
    (applyInstructions "osx-64" c1rd c1ins).removed.Pairwise (· ≤ ·) := by
  have h := c1_apply_instructions_removed "osx-64" c1rd c1ins
  have hfn : "a.tar.bz2" ∈ c1ins.remove := List.mem_singleton.mpr rfl
  have h1 := h.1 "a.tar.bz2" hfn
  have hck : condaKey "a.tar.bz2" = "a.conda" := by decide
  exact ⟨h1.1, hck ▸ h1.2, h.2.1⟩

/-- The empty merge leaves the base dict unchanged (the `base == new`
shortcut with two empty dicts). -/
theorem updateDict_nil_nil (am : Bool) : updateDict [] [] am = [] := by
  unfold updateDict
  have h : jobjBeq [] [] = true := by
    unfold jobjBeq
    rfl
  rw [h]
  simp

/-- C1 counterexample: a `remove` entry naming a filename with no entry in
either bucket is NOT added to `removed` (`if popped:` fails), so `removed`
is not the sorted set of all filenames of the `remove` list. -/
theorem c1_counterexample :
    "a.conda" ∈ (Instructions.mk [] [] [] ["a.conda"]).remove ∧
    (applyInstructions "osx-64" ⟨[], [], []⟩ ⟨[], [], [], ["a.conda"]⟩).removed = [] := by
  constructor
  · exact List.mem_singleton.mpr rfl
  · have hmid : midState ⟨[], [], []⟩ ⟨[], [], [], ["a.conda"]⟩ = ([], []) := by
      have h0 : updateDict [] [] false = [] := updateDict_nil_nil false
      simp only [midState, dictOfPairs, List.map_nil, List.foldl_nil, h0,
        applyRevokes]
    show sortStrings (applyRemoves
        (midState ⟨[], [], []⟩ ⟨[], [], [], ["a.conda"]⟩).1
        (midState ⟨[], [], []⟩ ⟨[], [], [], ["a.conda"]⟩).2
        [] ["a.conda"]).2.2 = []
    rw [hmid]
    rfl

/-! ## Channel-summary merging (`_update_channeldata`, index/__init__.py)

The version comparison is conda's `VersionOrder` (an external library),
abstracted as the Boolean parameter `vgt` with `vgt a b` standing for
`VersionOrder(a) > VersionOrder(b)`. -/

/-- `_make_seconds`: an integer timestamp beyond 9999-12-31 is interpreted
as milliseconds and floor-divided by 1000. -/
def makeSeconds (t : Nat) : Nat :=
  if t > 253402300799 then t / 1000 else t

theorem makeSeconds_small (t : Nat) (h : t ≤ 253402300799) : makeSeconds t = t := by
  unfold makeSeconds
  rw [if_neg]
  omega

/-- The scalar descriptive fields updated via
`_replace_if_newer_and_present` (the tuple in `_update_channeldata`,
`version` included). -/
def scalarFields : List String :=
  ["description", "dev_url", "doc_url", "doc_source_url", "home", "license",
   "source_url", "source_git_url", "summary", "icon_url", "icon_hash",
   "tags", "identifiers", "keywords", "recipe_origin", "version"]

/-- The boolean post-install flags combined with `any(...)`. -/
def boolFields : List String :=
  ["binary_prefix", "text_prefix", "activate.d", "deactivate.d",
   "pre_link", "post_link", "pre_unlink"]

/-- The view of one contributing record inside `_update_channeldata`'s
loop (`load_all_from_cache` merged with the repodata record): its
string-valued descriptive fields, its timestamp, its boolean flags and its
run_exports blob (`none`/empty models a falsy value). -/
structure CDRecord where
  fields : List (String × String)
  timestamp : Option Nat
  bools : List (String × Bool)
  runExports : Option String
deriving DecidableEq, Repr

/-- One entry of `channeldata["packages"]` as built by the loop; every
scalar key is assigned on each merge, possibly to `None` (hence
`Option String` values). -/
structure CDEntry where
  fields : List (String × Option String)
  bools : List (String × Bool)
  subdirs : List String
  runExports : List (String × String)
  timestamp : Option Nat
deriving DecidableEq, Repr

/-- Python truthiness of an optional string (absent and empty are falsy). -/
def truthyStr : Option String → Bool
  | some s => !s.isEmpty
  | none => false

/-- `existing_record.get(k)` on the stored entry (`package_data.get(name, {})`):
an absent entry, an absent key and a stored `None` all give `None`. -/
def eGet (e : Option CDEntry) (k : String) : Option String :=
  match e with
  | none => none
  | some e => (alookup e.fields k).join

/-- `existing_record.get("version", "0")`.  A stored `None` version would
make `VersionOrder(None)` raise in CPython; that unreachable case is
modelled as the default "0". -/
def erecVersion : Option CDEntry → String
  | none => "0"
  | some e =>
      match alookup e.fields "version" with
      | some (some v) => v
      | _ => "0"

/-- `existing_record.get("timestamp", 0)`. -/
def erecTimestamp : Option CDEntry → Nat
  | none => 0
  | some e => e.timestamp.getD 0

/-- The `data_newer` test of `_update_channeldata`: strictly newer version,
or same version string and strictly newer normalized timestamp. -/
def dataNewer (vgt : String → String → Bool) (d : CDRecord) (e : Option CDEntry) :
    Bool :=
  vgt ((alookup d.fields "version").getD "0") (erecVersion e) ||
    ((alookup d.fields "version").getD "0" == erecVersion e &&
      makeSeconds (d.timestamp.getD 0) > makeSeconds (erecTimestamp e))

/-- `_replace_if_newer_and_present`: overwrite when the incoming value is
truthy and (`data_newer` or the stored field is falsy); otherwise keep the
stored value (possibly `None`). -/
def replaceIfNewerAndPresent (d : CDRecord) (e : Option CDEntry) (dnewer : Bool)
    (k : String) : Option String :=
  if truthyStr (alookup d.fields k) && (dnewer || !truthyStr (eGet e k)) then
    alookup d.fields k
  else eGet e k

/-- `existing_record.get(k)` for the boolean flags. -/
def eBool (e : Option CDEntry) (k : String) : Bool :=
  match e with
  | none => false
  | some e => (alookup e.bools k).getD false

/-- `existing_record.get("subdirs", [])`. -/
def eSubdirs : Option CDEntry → List String
  | none => []
  | some e => e.subdirs

/-- `existing_record.get("run_exports", {})`. -/
def eRunExports : Option CDEntry → List (String × String)
  | none => []
  | some e => e.runExports

/-- Embedding of the body of `_update_channeldata`'s merge loop for one
`(record, existing entry)` pair: compute `data_newer`, update the sixteen
scalar fields with `_replace_if_newer_and_present`, OR the seven boolean
flags, extend `subdirs`, record `run_exports` under the record's version
when truthy, and take the max-and-normalize timestamp (`chanTs` is
`channel_data.get(name, {}).get("timestamp", 0)` from the previously
written channeldata). -/
def updateChanneldataEntry (vgt : String → String → Bool) (subdir : String)
    (chanTs : Nat) (e : Option CDEntry) (d : CDRecord) : CDEntry :=
  let dnewer := dataNewer vgt d e
  let dv := (alookup d.fields "version").getD "0"
  { fields := scalarFields.map (fun k => (k, replaceIfNewerAndPresent d e dnewer k)),
    bools := boolFields.map (fun k => (k, (alookup d.bools k).getD false || eBool e k)),
    subdirs := sortStrings ((eSubdirs e ++ [subdir]).dedup),
    runExports :=
      match d.runExports with
      | some s => if !s.isEmpty then aset (eRunExports e) dv s else eRunExports e
      | none => eRunExports e,
    timestamp := some (makeSeconds (max (d.timestamp.getD 0) chanTs)) }

theorem alookup_map_self {α : Type} (ks : List String) (f : String → α) (k : String)
    (h : k ∈ ks) : alookup (ks.map (fun k => (k, f k))) k = some (f k) := by
  induction ks with
  | nil => simp at h
  | cons a as ih =>
    by_cases hk : a = k
    · simp [alookup, hk]
    · rcases List.mem_cons.mp h with rfl | h
      · exact absurd rfl hk
      · simp [alookup, hk, ih h]

/-- C3 (amended): in a channel-summary merge, a scalar descriptive field is
overwritten by the incoming record's value exactly when the incoming value
is truthy AND (the incoming version is newer, OR the version strings are
equal and the incoming normalized timestamp is strictly greater, OR the
stored field is falsy); consequently, when exactly two records contribute
in sequence, both carrying truthy values, the value chosen comes from the
record whose `(version, normalized timestamp)` is lexicographically
greater — not, in general, from the record with the greater version
alone. -/
theorem lookup_updateEntry_fields (vgt : String → String → Bool) (sd : String)
    (cts : Nat) (e : Option CDEntry) (d : CDRecord) (k : String)
    (hk : k ∈ scalarFields) :
    alookup (updateChanneldataEntry vgt sd cts e d).fields k =
      some (replaceIfNewerAndPresent d e (dataNewer vgt d e) k) := by
  show alookup (scalarFields.map
      (fun k => (k, replaceIfNewerAndPresent d e (dataNewer vgt d e) k))) k = _
  exact alookup_map_self _ _ _ hk

/-- C3 (amended): in a channel-summary merge, a scalar descriptive field is
overwritten by the incoming record's value exactly when the incoming value
is truthy AND (the incoming version is newer, OR the version strings are
equal and the incoming normalized timestamp is strictly greater, OR the
stored field is falsy); consequently, when exactly two records contribute
in sequence, both carrying truthy values, the value chosen comes from the
record whose `(version, normalized timestamp)` is lexicographically
greater — not, in general, from the record with the greater version
alone. -/
theorem c3_channeldata_scalar_merge :
    (∀ (vgt : String → String → Bool) (sd : String) (cts : Nat)
        (e : Option CDEntry) (d : CDRecord) (k : String), k ∈ scalarFields →
      alookup (updateChanneldataEntry vgt sd cts e d).fields k =
        some (if truthyStr (alookup d.fields k) &&
                  (dataNewer vgt d e || !truthyStr (eGet e k)) then
                alookup d.fields k
              else eGet e k)) ∧
    (∀ (vgt : String → String → Bool) (sd1 sd2 k va vb ka kb : String)
        (tsa tsb : Nat),
      k ∈ scalarFields → k ≠ "version" →
      truthyStr (some ka) = true → truthyStr (some kb) = true →
      truthyStr (some va) = true →
      tsa ≤ 253402300799 → tsb ≤ 253402300799 →
      alookup (updateChanneldataEntry vgt sd2 0
          (some (updateChanneldataEntry vgt sd1 0 none
            ⟨[("version", va), (k, ka)], some tsa, [], none⟩))
          ⟨[("version", vb), (k, kb)], some tsb, [], none⟩).fields k =
        some (some (if vgt vb va || (vb == va && decide (tsb > tsa)) then kb
                    else ka))) := by
  constructor
  · intro vgt sd cts e d k hk
    rw [lookup_updateEntry_fields vgt sd cts e d k hk]
    rfl
  · intro vgt sd1 sd2 k va vb ka kb tsa tsb hk hkv hka hkb hva htsa htsb
    have hvmem : "version" ∈ scalarFields := by decide
    have hvk : ("version" : String) ≠ k := fun h => hkv h.symm
    have hva' : va.isEmpty = false := by simpa [truthyStr] using hva
    have hka' : ka.isEmpty = false := by simpa [truthyStr] using hka
    have hkb' : kb.isEmpty = false := by simpa [truthyStr] using hkb
    have h1v : alookup (updateChanneldataEntry vgt sd1 0 none
        ⟨[("version", va), (k, ka)], some tsa, [], none⟩).fields "version" =
        some (some va) := by
      rw [lookup_updateEntry_fields vgt sd1 0 none
        ⟨[("version", va), (k, ka)], some tsa, [], none⟩ "version" hvmem]
      unfold replaceIfNewerAndPresent
      simp [alookup, eGet, truthyStr, hva']
    have h1k : alookup (updateChanneldataEntry vgt sd1 0 none
        ⟨[("version", va), (k, ka)], some tsa, [], none⟩).fields k =
        some (some ka) := by
      rw [lookup_updateEntry_fields vgt sd1 0 none
        ⟨[("version", va), (k, ka)], some tsa, [], none⟩ k hk]
      unfold replaceIfNewerAndPresent
      simp [alookup, eGet, truthyStr, hvk, hka']
    have hts1 : (updateChanneldataEntry vgt sd1 0 none
        ⟨[("version", va), (k, ka)], some tsa, [], none⟩).timestamp = some tsa := by
      show some (makeSeconds (max tsa 0)) = some tsa
      rw [Nat.max_zero, makeSeconds_small tsa htsa]
    rw [lookup_updateEntry_fields vgt sd2 0
      (some (updateChanneldataEntry vgt sd1 0 none
        ⟨[("version", va), (k, ka)], some tsa, [], none⟩))
      ⟨[("version", vb), (k, kb)], some tsb, [], none⟩ k hk]
    have hevs : ∀ e : CDEntry, erecVersion (some e) =
        (match alookup e.fields "version" with
         | some (some v) => v
         | _ => "0") := fun _ => rfl
    have hets : ∀ e : CDEntry, erecTimestamp (some e) = e.timestamp.getD 0 :=
      fun _ => rfl
    have hev : erecVersion (some (updateChanneldataEntry vgt sd1 0 none
        ⟨[("version", va), (k, ka)], some tsa, [], none⟩)) = va := by
      rw [hevs, h1v]
    have het : erecTimestamp (some (updateChanneldataEntry vgt sd1 0 none
        ⟨[("version", va), (k, ka)], some tsa, [], none⟩)) = tsa := by
      rw [hets, hts1]
      rfl
    have hbv : (alookup
        (⟨[("version", vb), (k, kb)], some tsb, [], none⟩ : CDRecord).fields
        "version").getD "0" = vb := by
      simp [alookup]
    have hdn : dataNewer vgt ⟨[("version", vb), (k, kb)], some tsb, [], none⟩
        (some (updateChanneldataEntry vgt sd1 0 none
          ⟨[("version", va), (k, ka)], some tsa, [], none⟩)) =
        (vgt vb va || (vb == va && decide (tsb > tsa))) := by
      unfold dataNewer
      rw [hev, het, hbv]
      rw [show ((⟨[("version", vb), (k, kb)], some tsb, [], none⟩ :
            CDRecord).timestamp.getD 0) = tsb from rfl,
        makeSeconds_small tsa htsa, makeSeconds_small tsb htsb]
    unfold replaceIfNewerAndPresent
    rw [hdn]
    have hbk : alookup
        (⟨[("version", vb), (k, kb)], some tsb, [], none⟩ : CDRecord).fields k =
        some kb := by
      simp [alookup, hvk]
    rw [hbk]
    have hegetk : eGet (some (updateChanneldataEntry vgt sd1 0 none
        ⟨[("version", va), (k, ka)], some tsa, [], none⟩)) k = some ka := by
      have he : ∀ e : CDEntry, eGet (some e) k = (alookup e.fields k).join :=
        fun _ => rfl
      rw [he, h1k]
      rfl
    rw [hegetk, hkb, hka]
    by_cases hC : (vgt vb va || (vb == va && decide (tsb > tsa))) = true <;>
      simp [hC]

/-- Boolean lexicographic comparison of char lists by code point. -/
def charListLt : List Char → List Char → Bool
  | [], [] => false
  | [], _ :: _ => true
  | _ :: _, [] => false
  | a :: as, b :: bs =>
      if a.toNat < b.toNat then true
      else if b.toNat < a.toNat then false
      else charListLt as bs

/-- A concrete version order for counterexample and witness instances:
lexicographically greater string means newer. -/
def vgtLex (a b : String) : Bool := charListLt b.data a.data

/-- Stored channeldata entry for the C3 counterexample. -/
def c3entry : CDEntry :=
  ⟨[("version", some "2"), ("summary", some "old")], [], ["osx-64"], [], some 100⟩

/-- Incoming record for the C3 counterexample: same version, newer
timestamp, truthy summary. -/
def c3rec : CDRecord := ⟨[("version", "2"), ("summary", "new")], some 200, [], none⟩

/-- C3 counterexample: a record whose version is NOT newer than the stored
version (both "2") and whose target field is non-empty is still
overwritten, because the equal-version/newer-timestamp tie-break also
overwrites — refuting "overwritten only if the incoming version is newer or
the stored field is empty". -/
theorem c3_counterexample :
    alookup (updateChanneldataEntry vgtLex "osx-64" 0
        (some c3entry) c3rec).fields "summary" = some (some "new") ∧
    vgtLex "2" "2" = false ∧
    truthyStr (eGet (some c3entry) "summary") = true := by
  refine ⟨?_, by decide, by decide⟩
  decide

/-- Witness for C3 (amended), second part, at concrete data: the first
record has the smaller version "1" but the larger timestamp; the second
record's version "2" is lexicographically greater, so its summary wins. -/
theorem c3_channeldata_scalar_merge_witness :
    alookup (updateChanneldataEntry vgtLex "noarch" 0
        (some (updateChanneldataEntry vgtLex "osx-64" 0 none
          ⟨[("version", "1"), ("summary", "x")], some 10, [], none⟩))
        ⟨[("version", "2"), ("summary", "y")], some 5, [], none⟩).fields "summary" =
      some (some "y") := by
  have h := (c3_channeldata_scalar_merge).2 vgtLex "osx-64" "noarch"
      "summary" "1" "2" "x" "y" 10 5 (by decide) (by decide) (by decide)
      (by decide) (by decide) (by decide) (by decide)
  have hif : (vgtLex "2" "1" || ("2" == "1" && decide ((5 : Nat) > 10))) = true := by
    decide
  rw [h, hif]
  simp

/-! ## Atomic output writing (`_maybe_write_output_paths`, index/__init__.py) -/

theorem alookup_eq_none_iff {κ α : Type} [DecidableEq κ] (l : List (κ × α)) (k : κ) :
    alookup l k = none ↔ ∀ kv ∈ l, kv.1 ≠ k := by
  induction l with
  | nil => simp [alookup]
  | cons hd tl ih =>
    rcases hd with ⟨k', v⟩
    by_cases hk : k' = k
    · simp [alookup, hk]
    · simp [alookup, hk, ih]

theorem aset_of_none {κ α : Type} [DecidableEq κ] (l : List (κ × α)) (k : κ) (v : α)
    (h : alookup l k = none) : aset l k v = l ++ [(k, v)] := by
  induction l with
  | nil => simp [aset]
  | cons hd tl ih =>
    rcases hd with ⟨k', v'⟩
    rw [alookup_eq_none_iff] at h
    have hk : k' ≠ k := h (k', v') (List.mem_cons_self _ _)
    have htl : alookup tl k = none := by
      rw [alookup_eq_none_iff]
      intro kv hkv
      exact h kv (List.mem_cons_of_mem _ hkv)
    simp [aset, hk, ih htl]

theorem aerase_of_none {κ α : Type} [DecidableEq κ] (l : List (κ × α)) (k : κ)
    (h : alookup l k = none) : aerase l k = l := by
  rw [alookup_eq_none_iff] at h
  unfold aerase
  rw [List.filter_eq_self]
  intro kv hkv
  simpa using h kv hkv

theorem aerase_aset_self {κ α : Type} [DecidableEq κ] (l : List (κ × α)) (k : κ)
    (v : α) (h : alookup l k = none) : aerase (aset l k v) k = l := by
  rw [aset_of_none l k v h]
  unfold aerase
  rw [List.filter_append]
  have h1 : List.filter (fun kv => decide (kv.1 ≠ k)) [(k, v)] = [] := by
    simp [List.filter]
  rw [h1, List.append_nil, List.filter_eq_self]
  intro kv hkv
  rw [alookup_eq_none_iff] at h
  simpa using h kv hkv

/-- Bytes of a serialized document, as written through the binary or
utf-8 file handle. -/
abbrev Bytes := List UInt8

/-- One file on disk: its bytes and its modification time. -/
structure FileEntry where
  content : Bytes
  mtime : Nat
deriving DecidableEq, Repr

/-- The relevant slice of the filesystem: path → file. -/
abbrev FsState := List (String × FileEntry)

/-- Create or truncate a file (Python `open(mode="w"/"wb")` and `write`). -/
def fsWrite (fs : FsState) (p : String) (c : Bytes) (now : Nat) : FsState :=
  aset fs p ⟨c, now⟩

/-- `os.unlink`. -/
def fsUnlink (fs : FsState) (p : String) : FsState := aerase fs p

/-- `utils.move_with_fallback` (an atomic `os.replace`): the destination
takes the source file — bytes and mtime — and the source disappears. -/
def fsMove (fs : FsState) (src dst : String) : FsState :=
  match alookup fs src with
  | some e => aset (aerase fs src) dst e
  | none => fs

/-- Embedding of `ChannelIndex._maybe_write_output_paths`: write the
content (plus the optional trailing newline) to the temp path; if a file
already exists at the output path and its bytes match
(`utils.file_contents_match`), delete the temp file and return `False`,
leaving the existing output file — mtime included — untouched; otherwise
move the temp file into place and return `True`. -/
def maybeWriteOutputPaths (fs : FsState) (content : Bytes)
    (outputPath tmpPath : String) (writeNewlineEnd : Bool) (now : Nat) :
    Bool × FsState :=
  let c := content ++ (if writeNewlineEnd then [10] else [])
  let fs1 := fsWrite fs tmpPath c now
  match alookup fs1 outputPath with
  | some e =>
      if e.content = c then (false, fsUnlink fs1 tmpPath)
      else (true, fsMove fs1 tmpPath outputPath)
  | none => (true, fsMove fs1 tmpPath outputPath)

theorem maybeWrite_eq_some (fs : FsState) (content : Bytes) (out tmp : String)
    (nl : Bool) (now : Nat) (e : FileEntry) (hne : out ≠ tmp)
    (hout : alookup fs out = some e) :
    maybeWriteOutputPaths fs content out tmp nl now =
      if e.content = content ++ (if nl then [10] else [])
      then (false, fsUnlink (fsWrite fs tmp (content ++ (if nl then [10] else [])) now) tmp)
      else (true, fsMove (fsWrite fs tmp (content ++ (if nl then [10] else [])) now) tmp out) := by
  simp only [maybeWriteOutputPaths]
  rw [show alookup (fsWrite fs tmp (content ++ (if nl then [10] else [])) now) out
      = alookup fs out from alookup_aset_ne fs tmp out _ hne, hout]

theorem maybeWrite_eq_none (fs : FsState) (content : Bytes) (out tmp : String)
    (nl : Bool) (now : Nat) (hne : out ≠ tmp)
    (hout : alookup fs out = none) :
    maybeWriteOutputPaths fs content out tmp nl now =
      (true, fsMove (fsWrite fs tmp (content ++ (if nl then [10] else [])) now) tmp out) := by
  simp only [maybeWriteOutputPaths]
  rw [show alookup (fsWrite fs tmp (content ++ (if nl then [10] else [])) now) out
      = alookup fs out from alookup_aset_ne fs tmp out _ hne, hout]

theorem fsMove_write (fs : FsState) (tmp out : String) (c : Bytes) (now : Nat) :
    fsMove (fsWrite fs tmp c now) tmp out =
      aset (aerase (fsWrite fs tmp c now) tmp) out ⟨c, now⟩ := by
  unfold fsMove fsWrite
  rw [alookup_aset_self]

/-- When the existing output file's bytes equal the serialized content, the
temp file is deleted, `False` is returned, and the filesystem — the output
file's bytes and mtime included — is exactly as before. -/
theorem maybeWrite_skip (fs : FsState) (content : Bytes) (out tmp : String)
    (nl : Bool) (now : Nat) (e : FileEntry) (hne : out ≠ tmp)
    (htmp : alookup fs tmp = none) (hout : alookup fs out = some e)
    (hc : e.content = content ++ (if nl then [10] else [])) :
    maybeWriteOutputPaths fs content out tmp nl now = (false, fs) := by
  rw [maybeWrite_eq_some fs content out tmp nl now e hne hout, if_pos hc]
  show (false, fsUnlink (fsWrite fs tmp _ now) tmp) = (false, fs)
  unfold fsUnlink fsWrite
  rw [aerase_aset_self fs tmp _ htmp]

/-- After any call, the output path holds exactly the serialized content. -/
theorem maybeWrite_out_content (fs : FsState) (content : Bytes) (out tmp : String)
    (nl : Bool) (now : Nat) (hne : out ≠ tmp) :
    ∃ m, alookup (maybeWriteOutputPaths fs content out tmp nl now).2 out =
      some ⟨content ++ (if nl then [10] else []), m⟩ := by
  rcases hcase : alookup fs out with _ | e
  · rw [maybeWrite_eq_none fs content out tmp nl now hne hcase]
    refine ⟨now, ?_⟩
    show alookup (fsMove (fsWrite fs tmp _ now) tmp out) out = _
    rw [fsMove_write, alookup_aset_self]
  · rw [maybeWrite_eq_some fs content out tmp nl now e hne hcase]
    by_cases hc : e.content = content ++ (if nl then [10] else [])
    · rw [if_pos hc]
      refine ⟨e.mtime, ?_⟩
      show alookup (fsUnlink (fsWrite fs tmp _ now) tmp) out = _
      unfold fsUnlink fsWrite
      rw [alookup_aerase, if_neg hne, alookup_aset_ne fs tmp out _ hne, hcase]
      rcases e with ⟨cont, mt⟩
      simp only at hc
      rw [hc]
    · rw [if_neg hc]
      refine ⟨now, ?_⟩
      show alookup (fsMove (fsWrite fs tmp _ now) tmp out) out = _
      rw [fsMove_write, alookup_aset_self]

/-- C6: when a file already exists at the output path with bytes equal to
the newly serialized content, `_maybe_write_output_paths` deletes the
temporary file, returns `False`, and leaves the filesystem — including the
existing output file's mtime — untouched; consequently a second call with
the same content is such a no-op: it returns `False` and changes nothing,
so outputs stay byte-identical and keep the mtime from the first write. -/
theorem c6_maybe_write_idempotent :
    (∀ (fs : FsState) (content : Bytes) (out tmp : String) (nl : Bool)
        (now : Nat) (e : FileEntry),
      out ≠ tmp → alookup fs tmp = none → alookup fs out = some e →
      e.content = content ++ (if nl then [10] else []) →
      maybeWriteOutputPaths fs content out tmp nl now = (false, fs)) ∧
    (∀ (fs : FsState) (content : Bytes) (out tmp1 tmp2 : String) (nl : Bool)
        (t1 t2 : Nat),
      out ≠ tmp1 → out ≠ tmp2 →
      alookup (maybeWriteOutputPaths fs content out tmp1 nl t1).2 tmp2 = none →
      maybeWriteOutputPaths (maybeWriteOutputPaths fs content out tmp1 nl t1).2
          content out tmp2 nl t2 =
        (false, (maybeWriteOutputPaths fs content out tmp1 nl t1).2)) := by
  constructor
  · intro fs content out tmp nl now e hne htmp hout hc
    exact maybeWrite_skip fs content out tmp nl now e hne htmp hout hc
  · intro fs content out tmp1 tmp2 nl t1 t2 hne1 hne2 htmp2
    obtain ⟨m, hm⟩ := maybeWrite_out_content fs content out tmp1 nl t1 hne1
    exact maybeWrite_skip _ content out tmp2 nl t2 _ hne2 htmp2 hm rfl

/-- Witness for C6 at a concrete filesystem: an output file whose bytes
already equal the new content is skipped (return `False`, state unchanged),
and so is the second of two consecutive writes. -/
theorem c6_maybe_write_idempotent_witness :
    maybeWriteOutputPaths [("repodata.json", ⟨[123, 125], 7⟩)] [123, 125]
        "repodata.json" "repodata.json.tmp1" false 99 =
      (false, [("repodata.json", ⟨[123, 125], 7⟩)]) ∧
    maybeWriteOutputPaths
        (maybeWriteOutputPaths [] [123, 125] "repodata.json" "t1" false 3).2
        [123, 125] "repodata.json" "t2" false 4 =
      (false, (maybeWriteOutputPaths [] [123, 125] "repodata.json" "t1" false 3).2) := by
  constructor
  · exact c6_maybe_write_idempotent.1 [("repodata.json", ⟨[123, 125], 7⟩)]
      [123, 125] "repodata.json" "repodata.json.tmp1" false 99 ⟨[123, 125], 7⟩
      (by decide) (by decide) (by decide) (by decide)
  · exact c6_maybe_write_idempotent.2 [] [123, 125] "repodata.json" "t1" "t2"
      false 3 4 (by decide) (by decide) (by decide)

/-! ## Content-addressed shard writing (`index_subdir_shards` and
`index_patch_subdir_shards`, index/__init__.py)

`hashlib.sha256(...).digest()` and
`compressor.compress(sqlitecache.packb_typed(shard))` are external
collaborators; the digest function is the parameter `hash` and shard items
are carried as their already-serialized bodies. -/

/-- A lowercase hex digit (`bytes.hex()` uses lowercase). -/
def hexDigit : Nat → Char
  | 0 => '0' | 1 => '1' | 2 => '2' | 3 => '3' | 4 => '4' | 5 => '5'
  | 6 => '6' | 7 => '7' | 8 => '8' | 9 => '9' | 10 => 'a' | 11 => 'b'
  | 12 => 'c' | 13 => 'd' | 14 => 'e' | _ => 'f'

/-- `digest.hex()`: two lowercase hex digits per byte. -/
def hexOfBytes : Bytes → List Char
  | [] => []
  | b :: rest => hexDigit (b.toNat / 16) :: hexDigit (b.toNat % 16) :: hexOfBytes rest

/-- `f"{shard_hash.hex()}.msgpack.zst"`, the shard's on-disk name. -/
def shardFileName (digest : Bytes) : String :=
  ⟨hexOfBytes digest ++ ".msgpack.zst".data⟩

theorem hexDigit_inj (a b : Fin 16) (h : hexDigit a.val = hexDigit b.val) : a = b := by
  revert h
  revert a b
  decide

theorem hexOfBytes_inj (a b : Bytes) (h : hexOfBytes a = hexOfBytes b) : a = b := by
  induction a generalizing b with
  | nil =>
    cases b with
    | nil => rfl
    | cons y ys => simp [hexOfBytes] at h
  | cons x xs ih =>
    cases b with
    | nil => simp [hexOfBytes] at h
    | cons y ys =>
      simp only [hexOfBytes, List.cons.injEq] at h
      obtain ⟨h1, h2, h3⟩ := h
      have hx256 : x.toNat < 256 := x.val.isLt
      have hy256 : y.toNat < 256 := y.val.isLt
      have hxd : x.toNat / 16 < 16 := by omega
      have hyd : y.toNat / 16 < 16 := by omega
      have hxm : x.toNat % 16 < 16 := Nat.mod_lt _ (by omega)
      have hym : y.toNat % 16 < 16 := Nat.mod_lt _ (by omega)
      have hdiv : x.toNat / 16 = y.toNat / 16 :=
        congrArg Fin.val (hexDigit_inj ⟨x.toNat / 16, hxd⟩ ⟨y.toNat / 16, hyd⟩ h1)
      have hmod : x.toNat % 16 = y.toNat % 16 :=
        congrArg Fin.val (hexDigit_inj ⟨x.toNat % 16, hxm⟩ ⟨y.toNat % 16, hym⟩ h2)
      have hxy : x.toNat = y.toNat := by omega
      have hx : x = y := UInt8.ext_iff.mpr hxy
      rw [hx, ih ys h3]

theorem shardFileName_inj (a b : Bytes) (h : shardFileName a = shardFileName b) :
    a = b := by
  have hdata : hexOfBytes a ++ ".msgpack.zst".data =
      hexOfBytes b ++ ".msgpack.zst".data := congrArg String.data h
  exact hexOfBytes_inj a b (List.append_cancel_right hdata)

/-- The shard output directory: file name → file bytes. -/
abbrev ShardStore := List (String × Bytes)

/-- One iteration of the shard-writing loop shared by `index_subdir_shards`
and `index_patch_subdir_shards`: hash the serialized body, write the file
`{hex}.msgpack.zst` only when no file of that name exists
(`if not output_path.exists(): output_path.write_bytes(shard_data)`), and
record the raw digest in the manifest's `shards` map under the package
name. -/
def writeShardStep (hash : Bytes → Bytes)
    (st : ShardStore × List (String × Bytes)) (item : String × Bytes) :
    ShardStore × List (String × Bytes) :=
  (match alookup st.1 (shardFileName (hash item.2)) with
   | some _ => st.1
   | none => aset st.1 (shardFileName (hash item.2)) item.2,
   aset st.2 item.1 (hash item.2))

/-- The shard-writing loop over the `(name, serialized body)` sequence,
starting from an existing output directory and an empty `shards` map. -/
def writeShards (hash : Bytes → Bytes) (store : ShardStore)
    (shards : List (String × Bytes)) : ShardStore × List (String × Bytes) :=
  shards.foldl (writeShardStep hash) (store, [])

/-- Every file in the store is named by the hex of its own body's digest. -/
def contentAddressed (hash : Bytes → Bytes) (store : ShardStore) : Prop :=
  ∀ pr ∈ store, pr.1 = shardFileName (hash pr.2)

theorem alookup_mem {κ α : Type} [DecidableEq κ] (l : List (κ × α)) (k : κ) (v : α)
    (h : alookup l k = some v) : (k, v) ∈ l := by
  induction l with
  | nil => simp [alookup] at h
  | cons hd tl ih =>
    rcases hd with ⟨k', v'⟩
    by_cases hk : k' = k
    · rw [alookup, if_pos hk] at h
      obtain rfl : v' = v := Option.some.inj h
      subst hk
      exact List.mem_cons_self _ _
    · rw [alookup, if_neg hk] at h
      exact List.mem_cons_of_mem _ (ih h)

theorem mem_aset {κ α : Type} [DecidableEq κ] (l : List (κ × α)) (k : κ) (v : α)
    (pr : κ × α) (h : pr ∈ aset l k v) : pr = (k, v) ∨ pr ∈ l := by
  induction l with
  | nil => simpa [aset] using h
  | cons hd tl ih =>
    rcases hd with ⟨k', v'⟩
    by_cases hk : k' = k
    · rw [aset, if_pos hk] at h
      rcases List.mem_cons.mp h with rfl | h
      · exact Or.inl rfl
      · exact Or.inr (List.mem_cons_of_mem _ h)
    · rw [aset, if_neg hk] at h
      rcases List.mem_cons.mp h with rfl | h
      · exact Or.inr (List.mem_cons_self _ _)
      · rcases ih h with h | h
        · exact Or.inl h
        · exact Or.inr (List.mem_cons_of_mem _ h)

theorem writeShards_store_mono (hash : Bytes → Bytes)
    (shards : List (String × Bytes)) (st0 : ShardStore)
    (m0 : List (String × Bytes)) (p : String) (b : Bytes)
    (h : alookup st0 p = some b) :
    alookup (shards.foldl (writeShardStep hash) (st0, m0)).1 p = some b := by
  induction shards generalizing st0 m0 with
  | nil => exact h
  | cons it rest ih =>
    rw [List.foldl_cons]
    rcases hcase : alookup st0 (shardFileName (hash it.2)) with _ | c
    · have hstep : writeShardStep hash (st0, m0) it =
          (aset st0 (shardFileName (hash it.2)) it.2, aset m0 it.1 (hash it.2)) := by
        unfold writeShardStep
        rw [hcase]
      rw [hstep]
      have hne : p ≠ shardFileName (hash it.2) := by
        intro hp
        rw [hp, hcase] at h
        exact Option.noConfusion h
      exact ih _ _ (by rw [alookup_aset_ne _ _ _ _ hne]; exact h)
    · have hstep : writeShardStep hash (st0, m0) it = (st0, aset m0 it.1 (hash it.2)) := by
        unfold writeShardStep
        rw [hcase]
      rw [hstep]
      exact ih _ _ h

theorem writeShards_CA (hash : Bytes → Bytes) (shards : List (String × Bytes))
    (st0 : ShardStore) (m0 : List (String × Bytes))
    (hCA : contentAddressed hash st0) :
    contentAddressed hash (shards.foldl (writeShardStep hash) (st0, m0)).1 := by
  induction shards generalizing st0 m0 with
  | nil => exact hCA
  | cons it rest ih =>
    rw [List.foldl_cons]
    rcases hcase : alookup st0 (shardFileName (hash it.2)) with _ | c
    · have hstep : writeShardStep hash (st0, m0) it =
          (aset st0 (shardFileName (hash it.2)) it.2, aset m0 it.1 (hash it.2)) := by
        unfold writeShardStep
        rw [hcase]
      rw [hstep]
      refine ih _ _ ?_
      intro pr hpr
      rcases mem_aset _ _ _ _ hpr with rfl | hpr
      · rfl
      · exact hCA pr hpr
    · have hstep : writeShardStep hash (st0, m0) it = (st0, aset m0 it.1 (hash it.2)) := by
        unfold writeShardStep
        rw [hcase]
      rw [hstep]
      exact ih _ _ hCA

theorem writeShards_file_exists (hash : Bytes → Bytes)
    (shards : List (String × Bytes)) (st0 : ShardStore)
    (m0 : List (String × Bytes)) (nb : String × Bytes) (hnb : nb ∈ shards) :
    ∃ b, alookup (shards.foldl (writeShardStep hash) (st0, m0)).1
      (shardFileName (hash nb.2)) = some b := by
  induction shards generalizing st0 m0 with
  | nil => simp at hnb
  | cons it rest ih =>
    rw [List.foldl_cons]
    rcases List.mem_cons.mp hnb with rfl | hnb
    · rcases hcase : alookup st0 (shardFileName (hash nb.2)) with _ | c
      · have hstep : writeShardStep hash (st0, m0) nb =
            (aset st0 (shardFileName (hash nb.2)) nb.2, aset m0 nb.1 (hash nb.2)) := by
          unfold writeShardStep
          rw [hcase]
        rw [hstep]
        exact ⟨nb.2, writeShards_store_mono hash rest _ _ _ _ (alookup_aset_self _ _ _)⟩
      · have hstep : writeShardStep hash (st0, m0) nb = (st0, aset m0 nb.1 (hash nb.2)) := by
          unfold writeShardStep
          rw [hcase]
        rw [hstep]
        exact ⟨c, writeShards_store_mono hash rest _ _ _ _ hcase⟩
    · exact ih _ _ hnb

theorem writeShards_manifest (hash : Bytes → Bytes)
    (shards : List (String × Bytes)) (st0 : ShardStore)
    (m0 : List (String × Bytes)) :
    (shards.foldl (writeShardStep hash) (st0, m0)).2 =
      shards.foldl (fun m it => aset m it.1 (hash it.2)) m0 := by
  induction shards generalizing st0 m0 with
  | nil => rfl
  | cons it rest ih =>
    rw [List.foldl_cons, List.foldl_cons]
    rcases hcase : alookup st0 (shardFileName (hash it.2)) with _ | c
    · have hstep : writeShardStep hash (st0, m0) it =
          (aset st0 (shardFileName (hash it.2)) it.2, aset m0 it.1 (hash it.2)) := by
        unfold writeShardStep
        rw [hcase]
      rw [hstep, ih]
    · have hstep : writeShardStep hash (st0, m0) it = (st0, aset m0 it.1 (hash it.2)) := by
        unfold writeShardStep
        rw [hcase]
      rw [hstep, ih]

theorem writeShards_noop (hash : Bytes → Bytes) (shards : List (String × Bytes))
    (st0 : ShardStore) (m0 : List (String × Bytes))
    (h : ∀ nb ∈ shards, ∃ b, alookup st0 (shardFileName (hash nb.2)) = some b) :
    (shards.foldl (writeShardStep hash) (st0, m0)).1 = st0 := by
  induction shards generalizing m0 with
  | nil => rfl
  | cons it rest ih =>
    rw [List.foldl_cons]
    obtain ⟨b, hb⟩ := h it (List.mem_cons_self _ _)
    have hstep : writeShardStep hash (st0, m0) it = (st0, aset m0 it.1 (hash it.2)) := by
      unfold writeShardStep
      rw [hb]
    rw [hstep]
    exact ih _ (fun nb hnb => h nb (List.mem_cons_of_mem _ hnb))

theorem manifestFold_lookup_src (hash : Bytes → Bytes)
    (items : List (String × Bytes)) (m0 : List (String × Bytes)) (n : String)
    (d : Bytes)
    (h : alookup (items.foldl (fun m it => aset m it.1 (hash it.2)) m0) n = some d) :
    alookup m0 n = some d ∨ ∃ it ∈ items, it.1 = n ∧ d = hash it.2 := by
  induction items generalizing m0 with
  | nil => exact Or.inl h
  | cons it rest ih =>
    rw [List.foldl_cons] at h
    rcases ih _ h with h1 | ⟨it', hit', h2, h3⟩
    · by_cases hn : n = it.1
      · subst hn
        rw [alookup_aset_self] at h1
        exact Or.inr ⟨it, List.mem_cons_self _ _, rfl, (Option.some.inj h1).symm⟩
      · rw [alookup_aset_ne _ _ _ _ hn] at h1
        exact Or.inl h1
    · exact Or.inr ⟨it', List.mem_cons_of_mem _ hit', h2, h3⟩

theorem manifestFold_lookup_skip (hash : Bytes → Bytes)
    (items : List (String × Bytes)) (m0 : List (String × Bytes)) (n : String)
    (h : n ∉ items.map Prod.fst) :
    alookup (items.foldl (fun m it => aset m it.1 (hash it.2)) m0) n =
      alookup m0 n := by
  induction items generalizing m0 with
  | nil => rfl
  | cons it rest ih =>
    rw [List.foldl_cons]
    simp only [List.map_cons, List.mem_cons] at h
    push_neg at h
    rw [ih _ h.2, alookup_aset_ne _ _ _ _ h.1]

theorem manifestFold_lookup_nodup (hash : Bytes → Bytes)
    (items : List (String × Bytes)) (m0 : List (String × Bytes))
    (hnd : (items.map Prod.fst).Nodup) (nb : String × Bytes) (hnb : nb ∈ items) :
    alookup (items.foldl (fun m it => aset m it.1 (hash it.2)) m0) nb.1 =
      some (hash nb.2) := by
  induction items generalizing m0 with
  | nil => simp at hnb
  | cons it rest ih =>
    rw [List.foldl_cons]
    simp only [List.map_cons, List.nodup_cons] at hnd
    rcases List.mem_cons.mp hnb with rfl | hnb
    · have hskip : nb.1 ∉ rest.map Prod.fst := hnd.1
      rw [manifestFold_lookup_skip hash rest _ _ hskip, alookup_aset_self]
    · exact ih _ hnd.2 hnb

/-- C7: for every shard written by the sharded-indexing loops (pre-patch
and post-patch): the body is stored under the file name built from the
lowercase hex of its digest, the manifest's `shards` map records exactly
that digest under the shard's package name (every manifest digest is the
digest of some input body; with distinct package names, exactly the input
body's digest), no existing file is ever rewritten, every manifest digest
matches the bytes of an existing file (given an initially content-addressed
directory), the store stays content-addressed, and running the loop again
over the same shards writes nothing and yields the same manifest. -/
theorem c7_shard_write_content_addressed (hash : Bytes → Bytes)
    (store : ShardStore) (shards : List (String × Bytes))
    (hCA : contentAddressed hash store) :
    (∀ n d, alookup (writeShards hash store shards).2 n = some d →
      ∃ b, (n, b) ∈ shards ∧ d = hash b) ∧
    ((shards.map Prod.fst).Nodup →
      ∀ nb ∈ shards,
        alookup (writeShards hash store shards).2 nb.1 = some (hash nb.2)) ∧
    contentAddressed hash (writeShards hash store shards).1 ∧
    (∀ n d, alookup (writeShards hash store shards).2 n = some d →
      ∃ b, alookup (writeShards hash store shards).1 (shardFileName d) = some b ∧
        hash b = d) ∧
    writeShards hash (writeShards hash store shards).1 shards =
      writeShards hash store shards := by
  have hman := writeShards_manifest hash shards store []
  refine ⟨?_, ?_, ?_, ?_, ?_⟩
  · intro n d h
    rw [show (writeShards hash store shards).2 =
        shards.foldl (fun m it => aset m it.1 (hash it.2)) [] from hman] at h
    rcases manifestFold_lookup_src hash shards [] n d h with h1 | ⟨it, hit, h2, h3⟩
    · exact absurd h1 (by simp [alookup])
    · exact ⟨it.2, by rw [← h2]; exact hit, h3⟩
  · intro hnd nb hnb
    rw [show (writeShards hash store shards).2 =
        shards.foldl (fun m it => aset m it.1 (hash it.2)) [] from hman]
    exact manifestFold_lookup_nodup hash shards [] hnd nb hnb
  · exact writeShards_CA hash shards store [] hCA
  · intro n d h
    rw [show (writeShards hash store shards).2 =
        shards.foldl (fun m it => aset m it.1 (hash it.2)) [] from hman] at h
    rcases manifestFold_lookup_src hash shards [] n d h with h1 | ⟨it, hit, h2, h3⟩
    · exact absurd h1 (by simp [alookup])
    · obtain ⟨b, hb⟩ := writeShards_file_exists hash shards store [] it hit
      refine ⟨b, by rw [h3]; exact hb, ?_⟩
      have hmem := alookup_mem _ _ _ hb
      have hname := writeShards_CA hash shards store [] hCA _ hmem
      simp only at hname
      have : shardFileName (hash b) = shardFileName (hash it.2) := hname.symm
      rw [h3]
      exact shardFileName_inj _ _ this
  · have hnoop : (shards.foldl (writeShardStep hash)
        ((writeShards hash store shards).1, ([] : List (String × Bytes)))).1 =
        (writeShards hash store shards).1 := by
      refine writeShards_noop hash shards _ [] ?_
      intro nb hnb
      exact writeShards_file_exists hash shards store [] nb hnb
    have hman2 := writeShards_manifest hash shards (writeShards hash store shards).1 []
    refine Prod.ext hnoop ?_
    show (List.foldl (writeShardStep hash)
        ((writeShards hash store shards).1, []) shards).2 =
      (writeShards hash store shards).2
    rw [hman2]
    exact hman.symm

/-- A toy digest for the C7 witness: sum of bytes, as a one-byte digest. -/
def sumHash (b : Bytes) : Bytes := [b.foldl (fun a c => a + c) 0]

/-- Witness for C7 at a concrete run: two shards written into an empty
(content-addressed) directory; the second run is a no-op and every
manifest digest names an existing, matching file. -/
theorem c7_shard_write_content_addressed_witness :
    (∀ pr ∈ ([] : ShardStore), pr.1 = shardFileName (sumHash pr.2)) ∧
    (alookup (writeShards sumHash [] [("a", [1, 2]), ("b", [3])]).2 "a" =
      some (sumHash [1, 2])) ∧
    contentAddressed sumHash (writeShards sumHash [] [("a", [1, 2]), ("b", [3])]).1 ∧
    writeShards sumHash (writeShards sumHash [] [("a", [1, 2]), ("b", [3])]).1
        [("a", [1, 2]), ("b", [3])] =
      writeShards sumHash [] [("a", [1, 2]), ("b", [3])] := by
  have hCA : contentAddressed sumHash ([] : ShardStore) := by
    intro pr hpr
    simp at hpr
  have h := c7_shard_write_content_addressed sumHash [] [("a", [1, 2]), ("b", [3])] hCA
  refine ⟨hCA, ?_, h.2.2.1, h.2.2.2.2⟩
  exact h.2.1 (by decide) ("a", [1, 2]) (by decide)

/-! ## Post-install scan (`_cache_post_install_details`, sqlitecache.py) -/

/-- Glob matching with `*` wildcards and literal characters — the fragment
of `fnmatch.fnmatch` exercised by the fixed patterns `*/.*-pre-link.*`,
`*/.*-post-link.*` and `*/.*-pre-unlink.*` (they contain no `?` or `[...]`,
and POSIX case normalization is the identity). -/
def globMatch (pat s : List Char) : Bool :=
  match pat, s with
  | [], [] => true
  | [], _ :: _ => false
  | '*' :: ps, [] => globMatch ps []
  | '*' :: ps, c :: cs => globMatch ps (c :: cs) || globMatch ('*' :: ps) cs
  | _ :: _, [] => false
  | p :: ps, c :: cs => p == c && globMatch ps cs
termination_by (s.length, pat.length)

/-- One entry of the parsed `paths.json` `paths` list, restricted to the
fields the scan reads (`_path` is accessed unconditionally). -/
structure PathEntry where
  path : String
  prefixPlaceholder : Option String
  fileMode : Option String
deriving DecidableEq, Repr

/-- The fixed-shape seven-flag post-install report (field names shortened
from binary_prefix, text_prefix, activate.d, deactivate.d, pre_link,
post_link, pre_unlink). -/
structure PostInstall where
  binaryPfx : Bool
  textPfx : Bool
  activateD : Bool
  deactivateD : Bool
  preLink : Bool
  postLink : Bool
  preUnlink : Bool
deriving DecidableEq, Repr

/-- The initial all-false report. -/
def postInstallAllFalse : PostInstall :=
  ⟨false, false, false, false, false, false, false⟩

/-- `str.startswith` for the `etc/conda/{activate.d,deactivate.d}` checks. -/
def startsWithStr (s pre : String) : Bool := pre.data.isPrefixOf s.data

/-- The prefix-data statement of the scan: when `prefix_placeholder` is
truthy, `file_mode == "binary"` sets `binary_prefix`, else
`file_mode == "text"` sets `text_prefix`. -/
def piPrefixData (st : PostInstall) (f : PathEntry) : PostInstall :=
  if truthyStr f.prefixPlaceholder then
    if f.fileMode == some "binary" then { st with binaryPfx := true }
    else if f.fileMode == some "text" then { st with textPfx := true }
    else st
  else st

/-- The `activate.d` statement: set when not already set and `_path` starts
with `etc/conda/activate.d`. -/
def piActivate (st : PostInstall) (f : PathEntry) : PostInstall :=
  if !st.activateD && startsWithStr f.path "etc/conda/activate.d" then
    { st with activateD := true }
  else st

/-- The `deactivate.d` statement. -/
def piDeactivate (st : PostInstall) (f : PathEntry) : PostInstall :=
  if !st.deactivateD && startsWithStr f.path "etc/conda/deactivate.d" then
    { st with deactivateD := true }
  else st

/-- The `pre-link` glob statement. -/
def piPreLink (st : PostInstall) (f : PathEntry) : PostInstall :=
  if !st.preLink && globMatch "*/.*-pre-link.*".data f.path.data then
    { st with preLink := true }
  else st

/-- The `post-link` glob statement. -/
def piPostLink (st : PostInstall) (f : PathEntry) : PostInstall :=
  if !st.postLink && globMatch "*/.*-post-link.*".data f.path.data then
    { st with postLink := true }
  else st

/-- The `pre-unlink` glob statement. -/
def piPreUnlink (st : PostInstall) (f : PathEntry) : PostInstall :=
  if !st.preUnlink && globMatch "*/.*-pre-unlink.*".data f.path.data then
    { st with preUnlink := true }
  else st

/-- The loop body of `_cache_post_install_details` for one path entry: the
six statements of the `for f in paths` loop, in source order. -/
def postInstallStep (st : PostInstall) (f : PathEntry) : PostInstall :=
  piPreUnlink (piPostLink (piPreLink (piDeactivate (piActivate
    (piPrefixData st f) f) f) f) f) f

/-- Embedding of `_cache_post_install_details`: `none` models an absent
`info/paths.json` (falsy `paths_json_str`); otherwise the per-entry scan
folds over the parsed `paths` list starting from the all-false report. -/
def cachePostInstallDetails (paths : Option (List PathEntry)) : PostInstall :=
  match paths with
  | none => postInstallAllFalse
  | some entries => entries.foldl postInstallStep postInstallAllFalse

theorem piPrefixData_spec (st : PostInstall) (f : PathEntry) :
    piPrefixData st f =
      ⟨st.binaryPfx || (truthyStr f.prefixPlaceholder && f.fileMode == some "binary"),
       st.textPfx || (truthyStr f.prefixPlaceholder && !(f.fileMode == some "binary")
          && f.fileMode == some "text"),
       st.activateD, st.deactivateD, st.preLink, st.postLink, st.preUnlink⟩ := by
  rcases st with ⟨b1, b2, b3, b4, b5, b6, b7⟩
  rcases h1 : truthyStr f.prefixPlaceholder with _ | _ <;>
    rcases h2 : (f.fileMode == some "binary") with _ | _ <;>
      rcases h3 : (f.fileMode == some "text") with _ | _ <;>
        simp [piPrefixData, h1, h2, h3]

theorem piActivate_spec (st : PostInstall) (f : PathEntry) :
    piActivate st f =
      ⟨st.binaryPfx, st.textPfx,
       st.activateD || startsWithStr f.path "etc/conda/activate.d",
       st.deactivateD, st.preLink, st.postLink, st.preUnlink⟩ := by
  rcases st with ⟨b1, b2, b3, b4, b5, b6, b7⟩
  cases b3 <;> rcases h : startsWithStr f.path "etc/conda/activate.d" with _ | _ <;>
    simp [piActivate, h]

theorem piDeactivate_spec (st : PostInstall) (f : PathEntry) :
    piDeactivate st f =
      ⟨st.binaryPfx, st.textPfx, st.activateD,
       st.deactivateD || startsWithStr f.path "etc/conda/deactivate.d",
       st.preLink, st.postLink, st.preUnlink⟩ := by
  rcases st with ⟨b1, b2, b3, b4, b5, b6, b7⟩
  cases b4 <;> rcases h : startsWithStr f.path "etc/conda/deactivate.d" with _ | _ <;>
    simp [piDeactivate, h]

theorem piPreLink_spec (st : PostInstall) (f : PathEntry) :
    piPreLink st f =
      ⟨st.binaryPfx, st.textPfx, st.activateD, st.deactivateD,
       st.preLink || globMatch "*/.*-pre-link.*".data f.path.data,
       st.postLink, st.preUnlink⟩ := by
  rcases st with ⟨b1, b2, b3, b4, b5, b6, b7⟩
  cases b5 <;> rcases h : globMatch "*/.*-pre-link.*".data f.path.data with _ | _ <;>
    simp [piPreLink, h]

theorem piPostLink_spec (st : PostInstall) (f : PathEntry) :
    piPostLink st f =
      ⟨st.binaryPfx, st.textPfx, st.activateD, st.deactivateD, st.preLink,
       st.postLink || globMatch "*/.*-post-link.*".data f.path.data,
       st.preUnlink⟩ := by
  rcases st with ⟨b1, b2, b3, b4, b5, b6, b7⟩
  cases b6 <;> rcases h : globMatch "*/.*-post-link.*".data f.path.data with _ | _ <;>
    simp [piPostLink, h]

theorem piPreUnlink_spec (st : PostInstall) (f : PathEntry) :
    piPreUnlink st f =
      ⟨st.binaryPfx, st.textPfx, st.activateD, st.deactivateD, st.preLink,
       st.postLink,
       st.preUnlink || globMatch "*/.*-pre-unlink.*".data f.path.data⟩ := by
  rcases st with ⟨b1, b2, b3, b4, b5, b6, b7⟩
  cases b7 <;> rcases h : globMatch "*/.*-pre-unlink.*".data f.path.data with _ | _ <;>
    simp [piPreUnlink, h]

theorem postInstallStep_spec (st : PostInstall) (f : PathEntry) :
    postInstallStep st f =
      ⟨st.binaryPfx || (truthyStr f.prefixPlaceholder && f.fileMode == some "binary"),
       st.textPfx || (truthyStr f.prefixPlaceholder && !(f.fileMode == some "binary")
          && f.fileMode == some "text"),
       st.activateD || startsWithStr f.path "etc/conda/activate.d",
       st.deactivateD || startsWithStr f.path "etc/conda/deactivate.d",
       st.preLink || globMatch "*/.*-pre-link.*".data f.path.data,
       st.postLink || globMatch "*/.*-post-link.*".data f.path.data,
       st.preUnlink || globMatch "*/.*-pre-unlink.*".data f.path.data⟩ := by
  rcases st with ⟨b1, b2, b3, b4, b5, b6, b7⟩
  rw [postInstallStep, piPrefixData_spec, piActivate_spec, piDeactivate_spec,
    piPreLink_spec, piPostLink_spec, piPreUnlink_spec]

/-- The scan over a whole `paths` list: each flag of the result is the
starting flag or-ed with "some entry satisfies the flag's per-entry
condition". -/
theorem foldl_postInstallStep (entries : List PathEntry) (st0 : PostInstall) :
    entries.foldl postInstallStep st0 =
      ⟨st0.binaryPfx || entries.any
          (fun f => truthyStr f.prefixPlaceholder && f.fileMode == some "binary"),
       st0.textPfx || entries.any
          (fun f => truthyStr f.prefixPlaceholder && !(f.fileMode == some "binary")
            && f.fileMode == some "text"),
       st0.activateD || entries.any
          (fun f => startsWithStr f.path "etc/conda/activate.d"),
       st0.deactivateD || entries.any
          (fun f => startsWithStr f.path "etc/conda/deactivate.d"),
       st0.preLink || entries.any
          (fun f => globMatch "*/.*-pre-link.*".data f.path.data),
       st0.postLink || entries.any
          (fun f => globMatch "*/.*-post-link.*".data f.path.data),
       st0.preUnlink || entries.any
          (fun f => globMatch "*/.*-pre-unlink.*".data f.path.data)⟩ := by
  induction entries generalizing st0 with
  | nil => simp
  | cons e es ih =>
    simp only [List.foldl_cons, List.any_cons, ih, postInstallStep_spec, Bool.or_assoc]

/-- `file_mode` is a single value, so the `elif` guard `not binary` is
redundant once `file_mode == "text"` holds. -/
theorem textCond_simplify (p fm : Option String) :
    (truthyStr p && !(fm == some "binary") && (fm == some "text"))
      = (truthyStr p && (fm == some "text")) := by
  by_cases h : fm = some "text"
  · subst h; simp
  · have h2 : (fm == some "text") = false := by
      cases fm with
      | none => rfl
      | some s =>
        simp only [Option.some.injEq] at h
        simp [h]
    simp [h2]

/-- C8: the PostInstall summary is a pure function of the `info/paths` body
producing exactly the seven booleans; `binary_prefix`/`text_prefix` are set
iff some entry has a truthy `prefix_placeholder` and `file_mode`
`"binary"`/`"text"`; `activate.d`/`deactivate.d` iff some entry's `_path`
starts with `etc/conda/activate.d`/`etc/conda/deactivate.d`;
`pre_link`/`post_link`/`pre_unlink` iff some entry's `_path` matches the
fnmatch glob `*/.*-pre-link.*`/`*/.*-post-link.*`/`*/.*-pre-unlink.*`; and
when `info/paths` is absent or its entry list empty all seven fields are
false. -/
theorem c8_post_install_details_spec :
    cachePostInstallDetails none = postInstallAllFalse ∧
    cachePostInstallDetails (some []) = postInstallAllFalse ∧
    ∀ entries : List PathEntry,
      (cachePostInstallDetails (some entries)).binaryPfx =
        entries.any (fun f => truthyStr f.prefixPlaceholder
          && f.fileMode == some "binary") ∧
      (cachePostInstallDetails (some entries)).textPfx =
        entries.any (fun f => truthyStr f.prefixPlaceholder
          && f.fileMode == some "text") ∧
      (cachePostInstallDetails (some entries)).activateD =
        entries.any (fun f => startsWithStr f.path "etc/conda/activate.d") ∧
      (cachePostInstallDetails (some entries)).deactivateD =
        entries.any (fun f => startsWithStr f.path "etc/conda/deactivate.d") ∧
      (cachePostInstallDetails (some entries)).preLink =
        entries.any (fun f => globMatch "*/.*-pre-link.*".data f.path.data) ∧
      (cachePostInstallDetails (some entries)).postLink =
        entries.any (fun f => globMatch "*/.*-post-link.*".data f.path.data) ∧
      (cachePostInstallDetails (some entries)).preUnlink =
        entries.any (fun f => globMatch "*/.*-pre-unlink.*".data f.path.data) := by
  refine ⟨rfl, rfl, ?_⟩
  intro entries
  have htext : (fun f : PathEntry => truthyStr f.prefixPlaceholder
        && !(f.fileMode == some "binary") && f.fileMode == some "text")
      = (fun f : PathEntry => truthyStr f.prefixPlaceholder
        && f.fileMode == some "text") :=
    funext fun f => textCond_simplify f.prefixPlaceholder f.fileMode
  simp only [cachePostInstallDetails, foldl_postInstallStep, postInstallAllFalse,
    Bool.false_or, htext]
  exact ⟨trivial, trivial, trivial, trivial, trivial, trivial, trivial⟩

/-! ### C9: the filesystem adapter interface consumed by `save_fs_state`

`fs.MinimalFS` defines exactly four methods - `open`, `stat`, `join`,
`listdir` - and its `listdir` is `os.listdir`, which returns bare filename
strings (`FsspecFS.listdir` likewise returns a list of strings).
`sqlitecache.save_fs_state`, however, iterates `self.fs.listdir(...)`
subscripting each entry as `entry["name"]` (a `TypeError` on a `str`) and
calls `self.fs.basename` (an `AttributeError`, since no adapter defines
`basename`). We model a Python value yielded by `listdir` as either a bare
string or a mapping with `name`/`mtime`/`size`, the dynamic failures as an
error type, and the `listdir_stat` generator of `save_fs_state` as a
function that consumes such entries given the adapter's method list. -/

/-- The names of the methods the shipped `MinimalFS` class defines
(`fs.py`): `open`, `stat`, `join`, `listdir` - and nothing else. -/
def minimalFSMethods : List String := ["open", "stat", "join", "listdir"]

/-- A Python value yielded by an adapter's `listdir`: either a bare
filename string (what `os.listdir` produces) or a mapping with a `name`
and optional `mtime`/`size` fields (the shape `save_fs_state` consumes). -/
inductive FsEntry where
  | pystr (s : String)
  | pydict (name : String) (mtime size : Option Int)
deriving Repr, DecidableEq

/-- A dynamic error raised while running the generator. -/
inductive PyErr where
  | typeError
  | attributeError
deriving Repr, DecidableEq

/-- `entry["name"]`: subscripting a `str` with a string key raises
`TypeError`; on a mapping it returns the `name` field. -/
def entrySubscriptName : FsEntry → Except PyErr String
  | .pystr _ => .error .typeError
  | .pydict name _ _ => .ok name

/-- The `mtime` field of a mapping entry (`entry.get("mtime")`). -/
def entryMtime : FsEntry → Option Int
  | .pystr _ => none
  | .pydict _ mtime _ => mtime

/-- The `size` field of a mapping entry (`entry["size"]`). -/
def entrySize : FsEntry → Option Int
  | .pystr _ => none
  | .pydict _ _ size => size

/-- `MinimalFS.listdir` (also `FsspecFS.listdir`): returns the directory's
filenames as bare strings. -/
def minimalFS_listdir (names : List String) : List FsEntry :=
  names.map FsEntry.pystr

/-- The `listdir_stat` generator inside `save_fs_state`, run to a list: for
each entry it evaluates `entry["name"]`, skips names not ending in a conda
package extension, and builds the stat row via `self.fs.basename(...)` -
which raises `AttributeError` when the adapter's method list lacks
`basename`. -/
def listdirStat (methods : List String) :
    List FsEntry → Except PyErr (List (String × Option Int × Option Int))
  | [] => .ok []
  | e :: rest =>
    match entrySubscriptName e with
    | .error err => .error err
    | .ok name =>
      if endsWithExt name extV1 || endsWithExt name extV2 then
        if "basename" ∈ methods then
          match listdirStat methods rest with
          | .error err => .error err
          | .ok rows => .ok ((name, entryMtime e, entrySize e) :: rows)
        else .error .attributeError
      else listdirStat methods rest

/-- C9: the shipped default adapter does not provide the interface
`save_fs_state` consumes. `basename` is not among `MinimalFS`'s methods;
feeding `save_fs_state`'s generator the string entries that
`MinimalFS.listdir` actually returns raises `TypeError` on any non-empty
listing; and even an entry of the mapping shape the claim describes
reaches the missing `basename` and raises `AttributeError`. -/
theorem c9_minimal_fs_missing_interface :
    "basename" ∉ minimalFSMethods ∧
    (∀ (n : String) (rest : List String),
      listdirStat minimalFSMethods (minimalFS_listdir (n :: rest))
        = .error .typeError) ∧
    listdirStat minimalFSMethods
        [FsEntry.pydict "pkg-1.0-0.conda" (some 1) (some 2)]
      = .error .attributeError := by
  refine ⟨by decide, fun n rest => rfl, by rfl⟩

/-! ### C10: `detect_subdirs`

`ChannelIndex.detect_subdirs` branches on `if not self._subdirs`: the
auto-detection branch (taken when `_subdirs` is `None` **or** an empty
sequence, both falsy) scans the channel root for directories whose name is
a known default subdir and unions `{"noarch"}` before sorting; the explicit
branch returns `sorted(set(self._subdirs))` and only warns when `noarch`
is absent. We model the `os.scandir` result as a list of
(name, is_directory) pairs and `utils.DEFAULT_SUBDIRS` as a list of known
names. -/

/-- Python truthiness of the `_subdirs` constructor argument: `None` and
the empty sequence are falsy. -/
def subdirsFalsy : Option (List String) → Bool
  | none => true
  | some [] => true
  | some (_ :: _) => false

/-- Embedding of `detect_subdirs`. `scan` is the channel-root directory
listing as (name, is_directory) pairs; `known` is `utils.DEFAULT_SUBDIRS`.
`sorted(set(xs))` is modelled as `sortStrings xs.dedup`. -/
def detectSubdirs (supplied : Option (List String))
    (scan : List (String × Bool)) (known : List String) : List String :=
  if subdirsFalsy supplied = true then
    sortStrings
      (((scan.filter (fun e => decide (e.1 ∈ known) && e.2)).map Prod.fst
        ++ ["noarch"]).dedup)
  else
    sortStrings (supplied.getD []).dedup

theorem perm_insertStr (x : String) (l : List String) :
    (insertStr x l).Perm (x :: l) := by
  induction l with
  | nil => simp [insertStr]
  | cons hd tl ih =>
    simp only [insertStr]
    by_cases h : x < hd
    · simp [h]
    · rw [if_neg h]
      exact (ih.cons hd).trans (List.Perm.swap x hd tl)

theorem perm_sortStrings (l : List String) : (sortStrings l).Perm l := by
  induction l with
  | nil => simp [sortStrings]
  | cons hd tl ih => exact (perm_insertStr hd _).trans (ih.cons hd)

/-- C10: subdir discovery always returns a sorted, duplicate-free list;
when the caller supplies a non-empty subdir list the result is exactly
`sorted(set(supplied))` (so `noarch` is not added, its absence only being
warned about); and whenever `_subdirs` is falsy - absent **or** an
explicitly supplied empty list - the auto-detection branch runs and
`noarch` is unioned into the result. -/
theorem c10_detect_subdirs_spec (supplied : Option (List String))
    (scan : List (String × Bool)) (known : List String) :
    (detectSubdirs supplied scan known).Pairwise (· ≤ ·) ∧
    (detectSubdirs supplied scan known).Nodup ∧
    (∀ l, supplied = some l → l ≠ [] →
      detectSubdirs supplied scan known = sortStrings l.dedup ∧
      ∀ x, x ∈ detectSubdirs supplied scan known ↔ x ∈ l) ∧
    (subdirsFalsy supplied = true →
      "noarch" ∈ detectSubdirs supplied scan known) := by
  have hform : ∃ m : List String, m.Nodup ∧
      detectSubdirs supplied scan known = sortStrings m := by
    unfold detectSubdirs
    by_cases h : subdirsFalsy supplied = true
    · refine ⟨((scan.filter (fun e => decide (e.1 ∈ known) && e.2)).map Prod.fst
          ++ ["noarch"]).dedup, List.nodup_dedup _, ?_⟩
      rw [if_pos h]
    · refine ⟨(supplied.getD []).dedup, List.nodup_dedup _, ?_⟩
      rw [if_neg h]
  obtain ⟨m, hm, he⟩ := hform
  refine ⟨?_, ?_, ?_, ?_⟩
  · rw [he]; exact sorted_sortStrings m
  · rw [he]; exact (perm_sortStrings m).nodup_iff.mpr hm
  · intro l hl hne
    subst hl
    cases l with
    | nil => exact absurd rfl hne
    | cons a t =>
      have he2 : detectSubdirs (some (a :: t)) scan known
          = sortStrings (a :: t).dedup := rfl
      refine ⟨he2, fun x => ?_⟩
      rw [he2, mem_sortStrings, List.mem_dedup]
  · intro hf
    have he3 : detectSubdirs supplied scan known = sortStrings
        (((scan.filter (fun e => decide (e.1 ∈ known) && e.2)).map Prod.fst
          ++ ["noarch"]).dedup) := by
      unfold detectSubdirs; rw [if_pos hf]
    rw [he3, mem_sortStrings, List.mem_dedup]
    simp

theorem c10_detect_subdirs_spec_witness :
    detectSubdirs (some ["osx-64", "linux-64"]) [] []
        = sortStrings ["osx-64", "linux-64"].dedup ∧
    ("linux-64" ∈ detectSubdirs (some ["osx-64", "linux-64"]) [] [] ↔
      "linux-64" ∈ ["osx-64", "linux-64"]) ∧
    "noarch" ∈ detectSubdirs none [] [] :=
  ⟨((c10_detect_subdirs_spec (some ["osx-64", "linux-64"]) [] []).2.2.1
      ["osx-64", "linux-64"] rfl (by decide)).1,
   ((c10_detect_subdirs_spec (some ["osx-64", "linux-64"]) [] []).2.2.1
      ["osx-64", "linux-64"] rfl (by decide)).2 "linux-64",
   (c10_detect_subdirs_spec none [] []).2.2.2 rfl⟩

/-- An explicitly supplied empty subdir list is falsy, so it triggers the
auto-detection branch and gains `noarch` - the result is not
`sorted(set(supplied))`, which would be empty. -/
theorem c10_counterexample :
    detectSubdirs (some []) [] [] = ["noarch"] ∧
    sortStrings (([] : List String).dedup) = [] :=
  ⟨rfl, rfl⟩

end CondaIndex
